import Mathlib

/-!
# Verification of the CHEMKIN file codec specification

This development gives a shallow embedding of the CHEMKIN-format
thermodynamic/mechanism/transport file codec of this repository
(`rmgpy.chemkin`) and proves the behaviours asserted by its unit tests
and design specification.  The production module itself is not part of
the provided sources (only its unit tests are), so every definition of
the codec below is modelled from the specification and pinned to the
exact fixtures and message texts asserted by `rmgpy/chemkinTest.py`.

Strings are processed at the character-list level (`String.data`);
machine floats are modelled as exact rationals `ℚ`.
-/

set_option maxRecDepth 8000

deriving instance DecidableEq for Except

namespace Chemkin

/-! ## Character-list utilities -/

/-- Whitespace test used for field trimming (mirrors Python `str.strip`
with its default whitespace set, restricted to the characters that can
occur in these fixed-width files). -/
def isWS (c : Char) : Bool := c = ' ' || c = '\t' || c = '\r' || c = '\n'

/-- Trim whitespace from both ends of a character list. -/
def trimChars (l : List Char) : List Char :=
  ((l.dropWhile isWS).reverse.dropWhile isWS).reverse

/-- Fixed-column slice: `len` characters starting at column `a`
(slicing past the end of a short line just gives a short slice,
like Python string slicing). -/
def slice (l : List Char) (a len : Nat) : List Char := (l.drop a).take len

/-- Split a character list at every occurrence of `sep`, dropping the
separators (the behaviour of Python `str.split(sep)`). -/
def splitOnChar (sep : Char) : List Char → List (List Char)
  | [] => [[]]
  | c :: cs =>
    match splitOnChar sep cs with
    | [] => [[c]]
    | r :: rs => if c = sep then [] :: r :: rs else (c :: r) :: rs

/-- Join segments with a separator character (inverse of `splitOnChar`). -/
def joinChar (sep : Char) : List (List Char) → List Char
  | [] => []
  | [x] => x
  | x :: y :: rs => x ++ sep :: joinChar sep (y :: rs)

/-! ## Decimal numeral codec

The transport-file writer serializes numeric fields as text and the
reader parses them back; round-trip fidelity is part of the contract,
so the numeral codec is developed with its inverse lemmas. -/

/-- The character for a single decimal digit. -/
def digitChar (n : Nat) : Char := Char.ofNat (48 + n % 10)

/-- Value of a decimal digit character. -/
def digitVal (c : Char) : Option Nat :=
  if '0' ≤ c ∧ c ≤ '9' then some (c.toNat - 48) else none

/-- Decimal digit test. -/
def isDigitCh (c : Char) : Bool := decide ('0' ≤ c ∧ c ≤ '9')

/-- Most-significant-first decimal digits of `n`, prepended to `acc`;
`fuel` bounds the recursion depth (any `fuel > n` is enough). -/
def natToDigitsAux : Nat → Nat → List Char → List Char
  | 0, _, acc => acc
  | fuel + 1, n, acc =>
    if n < 10 then digitChar n :: acc
    else natToDigitsAux fuel (n / 10) (digitChar (n % 10) :: acc)

/-- Decimal digits of a natural number (no sign, no leading zeros
except for `0` itself). -/
def natDigits (n : Nat) : List Char := natToDigitsAux (n + 1) n []

/-- Parse a digit string left to right, accumulating into `acc`;
fails on any non-digit character. -/
def parseNatAux : List Char → Nat → Option Nat
  | [], acc => some acc
  | c :: cs, acc =>
    match digitVal c with
    | some d => parseNatAux cs (acc * 10 + d)
    | none => none

/-- Parse a non-empty all-digit string as a natural number
(the behaviour of Python `int` on a non-negative literal). -/
def parseNatChars (l : List Char) : Option Nat :=
  if l = [] then none else parseNatAux l 0

/-- Signed decimal digits of an integer. -/
def intChars (i : Int) : List Char :=
  if i < 0 then '-' :: natDigits i.natAbs else natDigits i.natAbs

/-- Parse an optionally `-`-signed decimal integer. -/
def parseIntChars (l : List Char) : Option Int :=
  if l.head? = some '-' then
    match parseNatChars l.tail with
    | some n => some (-(n : Int))
    | none => none
  else
    match parseNatChars l with
    | some n => some ((n : Int))
    | none => none

/-- Exact textual form of a rational: `num/den` with the numerator
signed and the fraction already reduced. -/
def ratChars (q : ℚ) : List Char := intChars q.num ++ '/' :: natDigits q.den

/-- Parse the `num/den` textual form of a rational. -/
def parseRatChars (l : List Char) : Option ℚ :=
  match splitOnChar '/' l with
  | [a, b] =>
    match parseIntChars a, parseNatChars b with
    | some n, some d => if d ≠ 0 then some (mkRat n d) else none
    | _, _ => none
  | _ => none

/-! ## Scientific-notation float fields

The thermo-entry parser reads fixed-width scientific-notation fields.
Machine floats are modelled as exact rationals; a field that Python
`float` would reject is modelled by `parseRatSci` returning `none`. -/

/-- Numeric value of an all-digit string (`0` for the empty string);
only meaningful when every character is a decimal digit. -/
def digitsVal (l : List Char) : Nat := l.foldl (fun a c => a * 10 + (c.toNat - 48)) 0

/-- The exact rational `sgn * digits * 10 ^ (ex - shift)`, built with a
single `mkRat` and natural-number powers only. -/
def sciVal (sgn : Int) (digits : Nat) (shift : Nat) (ex : Int) : ℚ :=
  if (shift : Int) ≤ ex then
    mkRat (sgn * (digits : Int) * ((Nat.pow 10 (ex - (shift : Int)).toNat : Nat) : Int)) 1
  else
    mkRat (sgn * (digits : Int)) (Nat.pow 10 (((shift : Int) - ex).toNat))

/-- Parse a decimal mantissa (optionally containing one decimal point)
carrying a sign and a decimal exponent. -/
def parseMantissa (sgn : Int) (m : List Char) (ex : Int) : Option ℚ :=
  match splitOnChar '.' m with
  | [ip] =>
    if ip ≠ [] && ip.all isDigitCh then
      some (sciVal sgn (digitsVal ip) 0 ex)
    else none
  | [ip, fp] =>
    if (ip ++ fp) ≠ [] && ip.all isDigitCh && fp.all isDigitCh then
      some (sciVal sgn (digitsVal (ip ++ fp)) fp.length ex)
    else none
  | _ => none

/-- Parse the exponent part after `E`: optional sign, then digits. -/
def parseExpPart (e : List Char) : Option Int :=
  match e with
  | '+' :: r => if r ≠ [] && r.all isDigitCh then some ((digitsVal r : Int)) else none
  | '-' :: r => if r ≠ [] && r.all isDigitCh then some (-((digitsVal r : Int))) else none
  | r => if r ≠ [] && r.all isDigitCh then some ((digitsVal r : Int)) else none

/-- Parse an (already trimmed) scientific-notation float field into an
exact rational: optional sign, decimal mantissa with optional
fractional part, optional `E`/`e` exponent with optional sign — the
grammar Python `float` accepts for the CHEMKIN numeric fields.
Returns `none` exactly when the conversion would raise `ValueError`. -/
def parseRatSci (l : List Char) : Option ℚ :=
  let norm := l.map (fun c => if c = 'e' then 'E' else c)
  let sgnBody : Int × List Char :=
    match norm with
    | '-' :: r => (-1, r)
    | '+' :: r => (1, r)
    | r => (1, r)
  match splitOnChar 'E' sgnBody.2 with
  | [m] => parseMantissa sgnBody.1 m 0
  | [m, e] =>
    match parseExpPart e with
    | some ex => parseMantissa sgnBody.1 m ex
    | none => none
  | _ => none

/-! ## Thermo entry parser

Modelled from the spec: the production `readThermoEntry` is not among
the provided sources (only its unit tests are), so the parser below is
reconstructed from spec §4.1 (fixed columns: species label in columns
0–18, four 5-column element segments at columns 24/29/34/39, phase
character at column 44, Tmin/Tmax/Tint at columns 45–55/55–65/65–73,
fourteen 15-character coefficient fields on lines 2–4) and from the
exact log texts asserted by the unit tests.  Log emission is modelled
as a structured event list returned alongside the result. -/

/-- A log message emitted while parsing (spec §9 treats log text as
part of the public contract). -/
inductive LogEvent where
  | info : String → LogEvent
  | warning : String → LogEvent
deriving DecidableEq

/-- A NASA-form thermodynamic polynomial: seven high-temperature
coefficients (the first seven fields of the record), seven
low-temperature ones, valid over `[Tmin, Tint]` and `[Tint, Tmax]`. -/
structure NASAPoly where
  coeffsHigh : List ℚ
  coeffsLow : List ℚ
  Tmin : ℚ
  Tint : ℚ
  Tmax : ℚ
deriving DecidableEq

/-- Outcome of `readThermoEntry`: either a raised structural error
(`ValueError`, no result tuple), or the `(label, thermo, formula)`
result tuple with the recoverable-skip components optional. -/
inductive ThermoResult where
  | raised : ThermoResult
  | done : String → Option NASAPoly → Option (List (String × Nat)) → ThermoResult
deriving DecidableEq

/-- The four fixed element-segment start columns of a thermo record. -/
def elementPositions : List Nat := [24, 29, 34, 39]

/-- Parse the element segments of line 1 at the given start columns.
Each segment is a 2-column element symbol plus a 3-column count; a
blank symbol skips the segment, a non-empty symbol with an unparsable
count is a structural error carrying the raw 5-column segment text. -/
def readElementsAux (line : List Char) : List Nat → Except (List Char) (List (String × Nat))
  | [] => .ok []
  | i :: rest =>
    let sym := trimChars (slice line i 2)
    let cnt := trimChars (slice line (i + 2) 3)
    if sym = [] then readElementsAux line rest
    else
      match parseNatChars cnt with
      | none => .error (slice line i 5)
      | some n =>
        match readElementsAux line rest with
        | .error e => .error e
        | .ok f => .ok ((String.mk sym, n) :: f)

/-- Parse all four element segments of a thermo record line. -/
def readElements (line : List Char) : Except (List Char) (List (String × Nat)) :=
  readElementsAux line elementPositions

/-- The exact warning text for a numeric-conversion failure
(the message of Python `float`, asserted verbatim by the tests). -/
def floatErrMsg (fld : List Char) : String :=
  "could not convert string to float: " ++ String.mk (trimChars fld)

/-- Read one temperature-range field: blank falls back to the
caller-supplied default (`.error none` marks the configuration error
of having neither), and a non-blank unparsable field is a recoverable
numeric-conversion failure carrying the exact error text. -/
def readTField (raw : List Char) (dflt : Option ℚ) : Except (Option String) ℚ :=
  if trimChars raw = [] then
    match dflt with
    | some v => .ok v
    | none => .error none
  else
    match parseRatSci (trimChars raw) with
    | some q => .ok q
    | none => .error (some (floatErrMsg raw))

/-- Read the `(Tmin, Tint, Tmax)` range from the fixed columns of
line 1, with caller-supplied fallbacks. -/
def readTRange (line : List Char) (Tmin Tint Tmax : Option ℚ) :
    Except (Option String) (ℚ × ℚ × ℚ) :=
  match readTField (slice line 45 10) Tmin with
  | .error e => .error e
  | .ok tmin =>
    match readTField (slice line 55 10) Tmax with
    | .error e => .error e
    | .ok tmax =>
      match readTField (slice line 65 8) Tint with
      | .error e => .error e
      | .ok tint => .ok (tmin, tint, tmax)

/-- The fourteen 15-character coefficient fields of lines 2–4
(five on each of lines 2 and 3, four on line 4). -/
def coeffFields (l1 l2 l3 : List Char) : List (List Char) :=
  [slice l1 0 15, slice l1 15 15, slice l1 30 15, slice l1 45 15, slice l1 60 15,
   slice l2 0 15, slice l2 15 15, slice l2 30 15, slice l2 45 15, slice l2 60 15,
   slice l3 0 15, slice l3 15 15, slice l3 30 15, slice l3 45 15]

/-- Parse the coefficient fields in order; the first field failing
numeric conversion aborts with the exact conversion error text. -/
def parseCoeffs : List (List Char) → Except String (List ℚ)
  | [] => .ok []
  | f :: fs =>
    match parseRatSci (trimChars f) with
    | none => .error (floatErrMsg f)
    | some q =>
      match parseCoeffs fs with
      | .error m => .error m
      | .ok qs => .ok (q :: qs)

/-- The `i`-th line of a (newline-separated) entry text. -/
def entryLine (entry : String) (i : Nat) : List Char :=
  (splitOnChar '\n' entry.data).getD i []

/-- The species label: columns 0–18 of line 1, trimmed. -/
def labelOf (entry : String) : String :=
  String.mk (trimChars (slice (entryLine entry 0) 0 18))

/-- The structural-error log text for a bad element segment,
asserted verbatim by `test_readThermoEntry_BadElementCount`. -/
def troubleMsg (line seg : List Char) : String :=
  "Trouble reading line \x27" ++ String.mk (trimChars line) ++
    "\x27 element segment \x27" ++ String.mk seg ++ "\x27"

/-- The warning text for non-gas-phase data, asserted verbatim by
`test_readThermoEntry_NotGasPhase`. -/
def phaseMsg (label : String) : String :=
  "Was expecting gas phase thermo data for " ++ label ++ ". Skipping thermo data."

/-- Modelled from the spec: `readThermoEntry` (spec §4.1), absent from
the provided sources.  Parses a 4-line fixed-width thermo block with
optional caller-supplied temperature-range fallbacks, returning the
result together with the log events emitted.  State machine per spec
§4.1: label → elements (fail ⇒ raise) → phase (non-gas ⇒ skip) →
T-range (blank ⇒ fallback) → coefficients (fail ⇒ skip) → success.
Per `test_readThermoEntry_NotFloat`, the recoverable
numeric-conversion skip returns a `none` formula component. -/
def readThermoEntry (entry : String) (Tmin Tint Tmax : Option ℚ) :
    ThermoResult × List LogEvent :=
  match readElements (entryLine entry 0) with
  | .error seg => (.raised, [.info (troubleMsg (entryLine entry 0) seg)])
  | .ok formula =>
    if slice (entryLine entry 0) 44 1 ≠ ['G'] then
      (.done (labelOf entry) none none, [.warning (phaseMsg (labelOf entry))])
    else
      match readTRange (entryLine entry 0) Tmin Tint Tmax with
      | .error none => (.raised, [])
      | .error (some msg) => (.done (labelOf entry) none none, [.warning msg])
      | .ok (tmin, tint, tmax) =>
        match parseCoeffs (coeffFields (entryLine entry 1) (entryLine entry 2) (entryLine entry 3)) with
        | .error msg => (.done (labelOf entry) none none, [.warning msg])
        | .ok qs =>
          (.done (labelOf entry) (some ⟨qs.take 7, qs.drop 7, tmin, tint, tmax⟩)
            (some formula), [])

/-! ## The thermo-entry fixtures of `rmgpy/chemkinTest.py` -/

/-- The entry of `test_readThermoEntry_BadElementCount`. -/
def entryBadElement : String :=
  "C2H6                    H   XC   X          L   100.000  5000.000  827.28      1\n 2.44813916E+00 1.83377834E-02-7.25714119E-06 1.35300042E-09-9.60327447E-14    2\n-1.19655244E+04 8.07917520E+00 3.50507145E+00-3.65219841E-03 6.32200490E-05    3\n-8.01049582E-08 3.19734088E-11-1.15627878E+04 6.67152939E+00                   4\n"

/-- The entry of `test_readThermoEntry_NotGasPhase`. -/
def entryNotGasPhase : String :=
  "C2H6                    H   6C   2          L   100.000  5000.000  827.28      1\n 2.44813916E+00 1.83377834E-02-7.25714119E-06 1.35300042E-09-9.60327447E-14    2\n-1.19655244E+04 8.07917520E+00 3.50507145E+00-3.65219841E-03 6.32200490E-05    3\n-8.01049582E-08 3.19734088E-11-1.15627878E+04 6.67152939E+00                   4\n"

/-- The entry of `test_readThermoEntry_NotFloat`. -/
def entryNotFloat : String :=
  "C2H6                    H   6C   2          G   100.000  5000.000  827.28      1\n X.44813916E+00 1.83377834E-02-7.25714119E-06 1.35300042E-09-9.60327447E-14    2\n-1.19655244E+04 8.07917520E+00 3.50507145E+00-3.65219841E-03 6.32200490E-05    3\n-8.01049582E-08 3.19734088E-11-1.15627878E+04 6.67152939E+00                   4\n"

/-- The entry of `test_readThermoEntry_NoTRange` (blank T-range columns). -/
def entryNoTRange : String :=
  "C2H6                    H   6C   2          G                                  1\n 2.44813916E+00 1.83377834E-02-7.25714119E-06 1.35300042E-09-9.60327447E-14    2\n-1.19655244E+04 8.07917520E+00 3.50507145E+00-3.65219841E-03 6.32200490E-05    3\n-8.01049582E-08 3.19734088E-11-1.15627878E+04 6.67152939E+00                   4\n"

/-- The exact rational values of the fourteen coefficient fields of
`entryNoTRange` (seven high-temperature, then seven low-temperature). -/
def entryNoTRangeCoeffs : List ℚ :=
  [mkRat 61203479 25000000, mkRat 91688917 5000000000,
   mkRat (-725714119) 100000000000000, mkRat 67650021 50000000000000000,
   mkRat (-960327447) 10000000000000000000000, mkRat (-29913811) 2500,
   mkRat 10098969 1250000,
   mkRat 70101429 20000000, mkRat (-365219841) 100000000000,
   mkRat 63220049 1000000000000, mkRat (-400524791) 5000000000000000,
   mkRat 39966761 1250000000000000000, mkRat (-57813939) 5000,
   mkRat 667152939 100000000]

/-! ## Species and transport data model

Modelled from the spec: the `Species` and `TransportData` collaborator
models (spec §3) are external to the provided sources; only the fields
the codec populates are modelled.  Physical quantities are exact
rationals (their unit annotations are fixed by the file format and
carry no information). -/

/-- Per-species transport properties (spec §3 `TransportData`). -/
structure TransportData where
  shapeIndex : Nat
  epsilon : ℚ
  sigma : ℚ
  dipoleMoment : ℚ
  polarizability : ℚ
  rotrelaxcollnum : ℚ
  comment : String
deriving DecidableEq

/-- A chemical species as the codec sees it (spec §3 `Species`):
label, the raw in-file (chemkin) name it was created from, reactivity
flag, optional numeric disambiguation index, optional structural
definition from the dictionary, optional transport record. -/
structure Species where
  label : String
  chemkinName : String
  reactive : Bool
  index : Option Nat
  adjacency : Option String
  transportData : Option TransportData
deriving DecidableEq

/-! ## Transport file codec

Modelled from the spec: `saveTransportFile` / `loadTransportFile`
(spec §4.5) are absent from the provided sources.  Each species with a
transport record becomes one text line carrying, in order, the label,
the shape index, the five numeric fields, and — after a `!` marker —
the free-text comment.  The numeric fields are serialized exactly
(`num/den`), which realizes the mandatory round-trip equality
contract. -/

/-- The whitespace-separated data tokens of one transport record. -/
def transportTokens (label : String) (td : TransportData) : List (List Char) :=
  [label.data, natDigits td.shapeIndex, ratChars td.epsilon, ratChars td.sigma,
   ratChars td.dipoleMoment, ratChars td.polarizability, ratChars td.rotrelaxcollnum]

/-- One serialized transport record line: the data tokens, then the
`!`-marked free-text comment. -/
def transportLine (label : String) (td : TransportData) : List Char :=
  joinChar ' ' (transportTokens label td) ++ ' ' :: '!' :: ' ' :: td.comment.data

/-- Modelled from the spec: `saveTransportFile` writes one record line
per species that has a transport record. -/
def saveTransportFile (spcs : List Species) : String :=
  String.mk (joinChar '\n' (spcs.filterMap (fun s => s.transportData.map (transportLine s.label))))

/-- Parse one transport record line back into a label and record. -/
def parseTransportLine (line : List Char) : Option (String × TransportData) :=
  match splitOnChar '!' line with
  | pre :: c1 :: cs =>
    let commentPart := joinChar '!' (c1 :: cs)
    let comment := match commentPart with
      | ' ' :: r => r
      | r => r
    match (splitOnChar ' ' pre).filter (fun t => decide (t ≠ [])) with
    | [lab, t1, t2, t3, t4, t5, t6] =>
      match parseNatChars t1, parseRatChars t2, parseRatChars t3, parseRatChars t4,
        parseRatChars t5, parseRatChars t6 with
      | some si, some ep, some sg, some dp, some pl, some rr =>
        some (String.mk lab, ⟨si, ep, sg, dp, pl, rr, String.mk comment⟩)
      | _, _, _, _, _, _ => none
    | _ => none
  | _ => none

/-- Install a parsed transport record on every dictionary entry with
the given label (the reader mutates the mapping of the caller in place,
spec §4.5). -/
def setTransport (dict : List (String × Species)) (lab : String) (td : TransportData) :
    List (String × Species) :=
  dict.map (fun p => if p.1 = lab then (p.1, { p.2 with transportData := some td }) else p)

/-- Modelled from the spec: `loadTransportFile` parses each line of the
file and populates the caller-provided label→species mapping. -/
def loadTransportFile (content : String) (dict : List (String × Species)) :
    List (String × Species) :=
  (splitOnChar '\n' content.data).foldl
    (fun d line =>
      match parseTransportLine line with
      | some (lab, td) => setTransport d lab td
      | none => d) dict

/-- The `Ar` transport fixture of `testTransportDataReadAndWrite`
(ε = 1134.93 J/mol, σ = 3.33 Å, GRI-Mech comment). -/
def tdAr : TransportData := ⟨0, mkRat 113493 100, mkRat 333 100, 0, 0, 0, "GRI-Mech"⟩

/-- The `Ar` species fixture of `testTransportDataReadAndWrite`. -/
def arSpecies : Species := ⟨"Ar", "Ar", true, none, none, some tdAr⟩

/-! ## Mechanism file model

Modelled from the spec: the Mechanism File Reader/Writer and Species
Dictionary Writer (spec §§4.2–4.4) are absent from the provided
sources.  A mechanism file is modelled in its structured form — the
declared species names and the reaction blocks with their trailing
comment lines — which is exactly the information content the spec
assigns to the fixed-width text. -/

/-- The configurable default inert species set of the reader
(spec §4.2: e.g. N2, Ar, He, Ne). -/
def defaultInertList : List String := ["Ar", "He", "Ne", "N2"]

/-- One species declaration of a mechanism file: its raw in-file
(chemkin) name, e.g. `N2(35)`. -/
structure SpeciesEntry where
  name : String
deriving DecidableEq

/-- One reaction block of a mechanism file: reactant/product species
names, an opaque kinetics text, and its trailing comment lines. -/
structure ReactionEntry where
  reactants : List String
  products : List String
  kinetics : String
  comments : List String
deriving DecidableEq

/-- A mechanism file in structured form. -/
structure MechFile where
  speciesEntries : List SpeciesEntry
  reactionEntries : List ReactionEntry
deriving DecidableEq

/-- One species-dictionary record: canonical label and structural
(adjacency-list) text. -/
structure DictEntry where
  label : String
  adjacency : String
deriving DecidableEq

/-- A reaction as produced by the reader: endpoints are the resolved
species identifiers, the kinetics text is carried opaquely, and
`family` is the optional extracted reaction-family annotation. -/
structure Reaction where
  reactants : List String
  products : List String
  kinetics : String
  family : Option String
deriving DecidableEq

/-- Association-list lookup by string key (first match wins). -/
def lookupAssoc {α : Type} : List (String × α) → String → Option α
  | [], _ => none
  | (k, v) :: rest, key => if k = key then some v else lookupAssoc rest key

/-- Drop the exact pattern `p` from the front of `l`, or fail. -/
def dropPref : List Char → List Char → Option (List Char)
  | [], cs => some cs
  | _ :: _, [] => none
  | p :: ps, c :: cs => if p = c then dropPref ps cs else none

/-- Split a chemkin species name of the shape `stem(123)` into its
stem and numeric index; names without a parenthesized numeric suffix
are returned whole (helper on the reversed name). -/
def splitIdentifierAux (revName : List Char) : Option (List Char × Nat) :=
  match revName with
  | ')' :: rest =>
    match rest.dropWhile isDigitCh with
    | '(' :: stemRev =>
      if rest.takeWhile isDigitCh = [] then none
      else
        match parseNatChars (rest.takeWhile isDigitCh).reverse with
        | some n => some (stemRev.reverse, n)
        | none => none
    | _ => none
  | _ => none

/-- Split a chemkin species name into `(stem, optional index)`. -/
def splitIdentifier (name : String) : String × Option Nat :=
  match splitIdentifierAux name.data.reverse with
  | some (stem, n) => (String.mk stem, some n)
  | none => (name, none)

/-- The species identifier (spec §4.2): the label with its numeric
disambiguation suffix in parentheses when one is assigned. -/
def getSpeciesIdentifier (s : Species) : String :=
  match s.index with
  | some n => String.mk (s.label.data ++ '(' :: natDigits n ++ [')'])
  | none => s.label

/-- The exact comment head carrying a reaction-family annotation. -/
def templateHead : String := "! Template reaction: "

/-- The historical spaceless variant of the family-annotation head. -/
def templateHeadOld : String := "!Template reaction: "

/-- Extract the family name from one comment line when it has the
exact form `! Template reaction: <FamilyName>` (or the historical
`!Template reaction: <FamilyName>`); any other line yields nothing. -/
def parseTemplateComment (l : String) : Option String :=
  match dropPref templateHead.data l.data with
  | some rest => some (String.mk rest)
  | none =>
    match dropPref templateHeadOld.data l.data with
    | some rest => some (String.mk rest)
    | none => none

/-- The family annotation of the comment block of a reaction: the first
comment line of the template form; other comment lines are ignored. -/
def extractFamily : List String → Option String
  | [] => none
  | l :: ls =>
    match parseTemplateComment l with
    | some f => some f
    | none => extractFamily ls

/-- The stem (in-file label) of a species entry name. -/
def entryStem (e : SpeciesEntry) : String := (splitIdentifier e.name).1

/-- The numeric index embedded in a species entry name, if any. -/
def entryIdx (e : SpeciesEntry) : Option Nat := (splitIdentifier e.name).2

/-- All species names referenced by a list of reaction blocks. -/
def namesOfReactions : List ReactionEntry → List String
  | [] => []
  | re :: rest => re.reactants ++ re.products ++ namesOfReactions rest

/-- All species names referenced by the reactions of a mechanism. -/
def usedNames (mech : MechFile) : List String := namesOfReactions mech.reactionEntries

/-- The label the reader gives a species entry: the in-file stem when
`useChemkinNames` is set, else the canonical dictionary label (falling
back to the stem for species missing from the dictionary, which are
treated as newly defined, spec §4.2). -/
def labelOfEntry (dict : List (String × DictEntry)) (ucn : Bool) (e : SpeciesEntry) : String :=
  if ucn then entryStem e
  else
    match lookupAssoc dict e.name with
    | some d => d.label
    | none => entryStem e

/-- The labels of all declared species of a mechanism. -/
def mechLabels (mech : MechFile) (dict : List (String × DictEntry)) (ucn : Bool) :
    List String :=
  mech.speciesEntries.map (labelOfEntry dict ucn)

/-- Build the species for the entry at position `pos` (spec §4.2):
reactive unless in the default inert set and not used by any reaction
(inert-by-default must not override reactive-by-usage); the index is
taken from the suffix of the name, else freshly assigned when the label
collides with another declared species. -/
def mkSpecies (mech : MechFile) (dict : List (String × DictEntry)) (ucn : Bool)
    (pos : Nat) (e : SpeciesEntry) : Species :=
  ⟨labelOfEntry dict ucn e, e.name,
   (if labelOfEntry dict ucn e ∈ defaultInertList then false else true) ||
     (if e.name ∈ usedNames mech then true else false),
   (match entryIdx e with
    | some n => some n
    | none =>
      if 2 ≤ (mechLabels mech dict ucn).count (labelOfEntry dict ucn e) then some pos
      else none),
   (lookupAssoc dict e.name).map DictEntry.adjacency,
   none⟩

/-- Pair each element of a list with its position, starting at `i`. -/
def withIdx {α : Type} : Nat → List α → List (Nat × α)
  | _, [] => []
  | i, x :: xs => (i, x) :: withIdx (i + 1) xs

/-- Find a species entry by raw name, with its position (from `i`). -/
def findEntryAux : Nat → List SpeciesEntry → String → Option (Nat × SpeciesEntry)
  | _, [], _ => none
  | i, e :: rest, n => if e.name = n then some (i, e) else findEntryAux (i + 1) rest n

/-- Find a declared species entry by raw name, with its position. -/
def findEntry (mech : MechFile) (n : String) : Option (Nat × SpeciesEntry) :=
  findEntryAux 0 mech.speciesEntries n

/-- Normalize a reaction-endpoint species name to the identifier of
the species it resolves to (names of undeclared species pass
through unchanged). -/
def normalizeName (mech : MechFile) (dict : List (String × DictEntry)) (ucn : Bool)
    (n : String) : String :=
  match findEntry mech n with
  | some (pos, e) => getSpeciesIdentifier (mkSpecies mech dict ucn pos e)
  | none => n

/-- Modelled from the spec: `loadChemkinFile` (spec §4.2), absent from
the provided sources.  Resolves the declared species against the
dictionary, marks default-inert species reactive when they are used by
a reaction, assigns disambiguating indices on label collisions, and
builds the reactions with normalized endpoints and the family
annotation extracted from the trailing comments. -/
def loadChemkinFile (mech : MechFile) (dict : List (String × DictEntry)) (ucn : Bool) :
    List Species × List Reaction :=
  ((withIdx 0 mech.speciesEntries).map (fun pe => mkSpecies mech dict ucn pe.1 pe.2),
   mech.reactionEntries.map (fun re =>
     ⟨re.reactants.map (normalizeName mech dict ucn),
      re.products.map (normalizeName mech dict ucn),
      re.kinetics, extractFamily re.comments⟩))

/-- The comment block the writer attaches to a reaction: the family
annotation line when a family is known, then (in verbose mode) a
human-readable kinetics annotation. -/
def reactionComments (verbose : Bool) (r : Reaction) : List String :=
  (match r.family with
   | some f => [templateHead ++ f]
   | none => []) ++ (if verbose then ["! kinetics: " ++ r.kinetics] else [])

/-- Modelled from the spec: `saveChemkinFile` (spec §4.3), absent from
the provided sources.  Writes every species under its identifier and
every reaction with its endpoints, kinetics and comment block.  The
`checkForDuplicates` flag is accepted; the spec leaves the
duplicate-detection algorithm deliberately unspecified (§9) and it
does not alter the species/reaction content. -/
def saveChemkinFile (species : List Species) (reactions : List Reaction)
    (verbose checkForDuplicates : Bool) : MechFile :=
  ⟨species.map (fun s => ⟨getSpeciesIdentifier s⟩),
   reactions.map (fun r => ⟨r.reactants, r.products, r.kinetics, reactionComments verbose r⟩)⟩

/-- Modelled from the spec: `saveSpeciesDictionary` (spec §4.4):
one structural record per species, keyed by the written label of the species
(its identifier); `oldStyle` selects the legacy record layout and does
not change the record contents. -/
def saveSpeciesDictionary (species : List Species) (oldStyle : Bool) :
    List (String × DictEntry) :=
  species.map (fun s =>
    (getSpeciesIdentifier s,
     ⟨s.label, match s.adjacency with | some a => a | none => ""⟩))

/-- Render a structured mechanism file to its text content. -/
def renderMechFile (m : MechFile) : String :=
  "SPECIES\n" ++ String.intercalate "\n" (m.speciesEntries.map SpeciesEntry.name) ++
  "\nEND\nREACTIONS\n" ++
  String.intercalate "\n" (m.reactionEntries.map (fun re =>
    String.intercalate "+" re.reactants ++ "=" ++ String.intercalate "+" re.products ++
    " " ++ re.kinetics ++ "\n" ++ String.intercalate "\n" re.comments)) ++ "\nEND\n"

/-- Render a species dictionary to its text content; `oldStyle`
selects the legacy record layout. -/
def renderDictionary (d : List (String × DictEntry)) (oldStyle : Bool) : String :=
  String.intercalate "\n\n" (d.map (fun p =>
    if oldStyle then p.2.label ++ "\n" ++ p.2.adjacency
    else p.1 ++ "\n" ++ p.2.adjacency))

/-- A file system, as a map from paths to file contents. -/
def FileSystem : Type := String → Option String

/-- Write (create or overwrite) a file. -/
def writeFile (fs : FileSystem) (path content : String) : FileSystem :=
  fun q => if q = path then some content else fs q

/-- Does a regular file exist at `path`? -/
def isFile (fs : FileSystem) (path : String) : Bool := (fs path).isSome

/-- The writer `saveChemkinFile` as a file-system action at an output path. -/
def saveChemkinFileFS (fs : FileSystem) (path : String) (species : List Species)
    (reactions : List Reaction) (verbose checkForDuplicates : Bool) : FileSystem :=
  writeFile fs path
    (renderMechFile (saveChemkinFile species reactions verbose checkForDuplicates))

/-- The writer `saveSpeciesDictionary` as a file-system action at an output path. -/
def saveSpeciesDictionaryFS (fs : FileSystem) (path : String) (species : List Species)
    (oldStyle : Bool) : FileSystem :=
  writeFile fs path (renderDictionary (saveSpeciesDictionary species oldStyle) oldStyle)

/-- Load a mechanism, write both files back out, and re-load what was
written (the round trip of spec §4.3/§8.5). -/
def chemkinRoundTrip (mech : MechFile) (dict : List (String × DictEntry))
    (ucn verbose checkForDuplicates oldStyle : Bool) : List Species × List Reaction :=
  loadChemkinFile
    (saveChemkinFile (loadChemkinFile mech dict ucn).1 (loadChemkinFile mech dict ucn).2
      verbose checkForDuplicates)
    (saveSpeciesDictionary (loadChemkinFile mech dict ucn).1 oldStyle) ucn

/-- The semantic content of a loaded species, which the round trip
must preserve (the raw in-file name is cosmetic formatting). -/
def speciesCore (s : Species) : String × Option Nat × Bool := (s.label, s.index, s.reactive)

/-- The semantic content of a loaded reaction: endpoints, kinetics and
family annotation. -/
def reactionCore (r : Reaction) : List String × List String × String × Option String :=
  (r.reactants, r.products, r.kinetics, r.family)

/-- A minimal mechanism fixture mirroring the `minimal` example: one
recombination reaction annotated with its family, preceded by a
free-text comment line. -/
def mechC4 : MechFile :=
  ⟨[⟨"CH3(2)"⟩, ⟨"ethane(1)"⟩],
   [⟨["CH3(2)", "CH3(2)"], ["ethane(1)"], "1.0E13 0 0",
     ["! generated by ratelib", "! Template reaction: R_Recombination"]⟩]⟩

/-- The `NC`-style fixture: an indexed `N2(35)` that reacts, next to a
plain `N2`, so the two labels collide. -/
def mechNC : MechFile :=
  ⟨[⟨"N2(35)"⟩, ⟨"N2"⟩], [⟨["N2(35)", "NC(1)"], ["NC2(2)"], "k", []⟩]⟩

/-- The species the reader builds for the `N2(35)` entry of `mechNC`. -/
def n2Loaded : Species := mkSpecies mechNC [] true 0 ⟨"N2(35)"⟩

/-- The species the second load builds at position `pos2` from the
written entry of `s` (abbreviation for the round-trip proofs). -/
def resaved (mech : MechFile) (dict : List (String × DictEntry)) (ucn v c oldSty : Bool)
    (pos2 : Nat) (s : Species) : Species :=
  mkSpecies
    (saveChemkinFile (loadChemkinFile mech dict ucn).1 (loadChemkinFile mech dict ucn).2 v c)
    (saveSpeciesDictionary (loadChemkinFile mech dict ucn).1 oldSty) ucn pos2
    ⟨getSpeciesIdentifier s⟩

/-- A structured mechanism mirroring the `minimal` example fixture:
three species and two family-annotated reactions. -/
def mechMin : MechFile :=
  ⟨[⟨"Ar"⟩, ⟨"ethane(1)"⟩, ⟨"CH3(2)"⟩],
   [⟨["CH3(2)", "CH3(2)"], ["ethane(1)"], "1.00E13 0 0",
     ["! Template reaction: R_Recombination"]⟩,
    ⟨["ethane(1)", "CH3(2)"], ["CH3(2)", "ethane(1)"], "2.00E5 0 0",
     ["! estimated in this direction", "! Template reaction: H_Abstraction"]⟩]⟩

/-- The species dictionary of the `minimal`-style fixture. -/
def dictMin : List (String × DictEntry) :=
  [("Ar", ⟨"Ar", "1 Ar u0 p4"⟩), ("ethane(1)", ⟨"ethane", "adjlist-ethane"⟩),
   ("CH3(2)", ⟨"CH3", "adjlist-ch3"⟩)]

/-! ## Theorems -/

theorem splitOnChar_ne_nil (sep : Char) (l : List Char) : splitOnChar sep l ≠ [] := by
  cases l with
  | nil => simp [splitOnChar]
  | cons c cs =>
    simp only [splitOnChar]
    match splitOnChar sep cs with
    | [] => simp
    | r :: rs =>
      by_cases h : c = sep <;> simp [h]

theorem joinChar_splitOnChar (sep : Char) :
    ∀ l : List Char, joinChar sep (splitOnChar sep l) = l := by
  intro l
  induction l with
  | nil => rfl
  | cons c cs ih =>
    rcases hs : splitOnChar sep cs with _ | ⟨r, rs⟩
    · exact absurd hs (splitOnChar_ne_nil sep cs)
    · rw [hs] at ih
      by_cases h : c = sep
      · simp only [splitOnChar, hs, if_pos h, joinChar, List.nil_append, ih, h]
      · simp only [splitOnChar, hs, if_neg h]
        cases rs with
        | nil =>
          simp only [joinChar] at ih ⊢
          rw [ih]
        | cons y ys =>
          simp only [joinChar] at ih ⊢
          rw [List.cons_append, ih]

theorem splitOnChar_not_mem {sep : Char} {l : List Char} (h : sep ∉ l) :
    splitOnChar sep l = [l] := by
  induction l with
  | nil => rfl
  | cons c cs ih =>
    have hc : c ≠ sep := fun hc => h (hc ▸ List.mem_cons_self c cs)
    have hcs : sep ∉ cs := fun hm => h (List.mem_cons_of_mem c hm)
    simp only [splitOnChar, ih hcs, if_neg hc]

theorem splitOnChar_append_cons {sep : Char} {xs : List Char} (ys : List Char)
    (h : sep ∉ xs) :
    splitOnChar sep (xs ++ sep :: ys) = xs :: splitOnChar sep ys := by
  induction xs with
  | nil =>
    simp only [List.nil_append, splitOnChar]
    rcases hs : splitOnChar sep ys with _ | ⟨r, rs⟩
    · exact absurd hs (splitOnChar_ne_nil sep ys)
    · simp
  | cons c cs ih =>
    have hc : c ≠ sep := fun hc => h (hc ▸ List.mem_cons_self c cs)
    have hcs : sep ∉ cs := fun hm => h (List.mem_cons_of_mem c hm)
    simp only [List.cons_append, splitOnChar, List.append_eq, ih hcs, if_neg hc]

theorem digitVal_digitChar : ∀ d, d < 10 → digitVal (digitChar d) = some d := by decide

theorem isDigitCh_digitChar (n : Nat) : isDigitCh (digitChar n) = true := by
  have h : n % 10 < 10 := Nat.mod_lt _ (by omega)
  have key : ∀ m, m < 10 → isDigitCh (Char.ofNat (48 + m)) = true := by decide
  exact key (n % 10) h

theorem natToDigitsAux_spec (n : Nat) :
    ∀ fuel acc, n < fuel → natToDigitsAux fuel n acc = natDigits n ++ acc := by
  induction n using Nat.strong_induction_on with
  | _ n ih =>
    intro fuel acc hf
    match fuel with
    | 0 => exact absurd hf (Nat.not_lt_zero n)
    | k + 1 =>
      by_cases h : n < 10
      · simp only [natToDigitsAux, if_pos h, natDigits, List.cons_append, List.nil_append]
      · have h10 : n / 10 < n := Nat.div_lt_self (by omega) (by omega)
        simp only [natToDigitsAux, if_neg h, natDigits]
        rw [ih _ h10 _ _ (by omega), ih _ h10 _ _ (by omega)]
        simp [List.append_assoc]

theorem natDigits_base {n : Nat} (h : n < 10) : natDigits n = [digitChar n] := by
  rw [natDigits]
  simp only [natToDigitsAux, if_pos h]

theorem natDigits_split {n : Nat} (h : ¬ n < 10) :
    natDigits n = natDigits (n / 10) ++ [digitChar (n % 10)] := by
  conv_lhs => rw [natDigits]
  simp only [natToDigitsAux, if_neg h]
  exact natToDigitsAux_spec (n / 10) n _ (Nat.div_lt_self (by omega) (by omega))

theorem natDigits_ne_nil (n : Nat) : natDigits n ≠ [] := by
  by_cases h : n < 10
  · rw [natDigits_base h]
    exact List.cons_ne_nil _ _
  · rw [natDigits_split h]
    simp

theorem natDigits_all_digit (n : Nat) : ∀ c ∈ natDigits n, isDigitCh c = true := by
  induction n using Nat.strong_induction_on with
  | _ n ih =>
    intro c hc
    by_cases h : n < 10
    · rw [natDigits_base h] at hc
      rcases List.mem_singleton.mp hc with rfl
      exact isDigitCh_digitChar n
    · rw [natDigits_split h] at hc
      have hlt : n / 10 < n := Nat.div_lt_self (by omega) (by omega)
      rcases List.mem_append.mp hc with h1 | h2
      · exact ih _ hlt c h1
      · rcases List.mem_singleton.mp h2 with rfl
        exact isDigitCh_digitChar (n % 10)

theorem parseNatAux_append (xs ys : List Char) (k : Nat) :
    parseNatAux (xs ++ ys) k =
      match parseNatAux xs k with
      | some v => parseNatAux ys v
      | none => none := by
  induction xs generalizing k with
  | nil => rfl
  | cons c cs ih =>
    simp only [List.cons_append, parseNatAux]
    cases digitVal c with
    | none => rfl
    | some d => exact ih (k * 10 + d)

theorem parseNatAux_natDigits (n : Nat) : parseNatAux (natDigits n) 0 = some n := by
  induction n using Nat.strong_induction_on with
  | _ n ih =>
    by_cases h : n < 10
    · rw [natDigits_base h]
      simp [parseNatAux, digitVal_digitChar n h]
    · have hlt : n / 10 < n := Nat.div_lt_self (by omega) (by omega)
      rw [natDigits_split h, parseNatAux_append, ih _ hlt]
      have hmod : n % 10 < 10 := Nat.mod_lt _ (by omega)
      simp only [parseNatAux, digitVal_digitChar _ hmod]
      have : n / 10 * 10 + n % 10 = n := by omega
      rw [this]

theorem parseNatChars_natDigits (n : Nat) : parseNatChars (natDigits n) = some n := by
  rw [parseNatChars, if_neg (natDigits_ne_nil n)]
  exact parseNatAux_natDigits n

theorem digit_ne_special {c : Char} (h : isDigitCh c = true) :
    c ≠ '-' ∧ c ≠ '/' ∧ c ≠ ' ' ∧ c ≠ '!' ∧ c ≠ '\n' ∧ c ≠ '(' ∧ c ≠ ')' := by
  rw [isDigitCh, decide_eq_true_iff] at h
  refine ⟨?_, ?_, ?_, ?_, ?_, ?_, ?_⟩ <;> rintro rfl <;> revert h <;> decide

theorem parseIntChars_intChars (i : Int) : parseIntChars (intChars i) = some i := by
  by_cases h : i < 0
  · rw [intChars, if_pos h, parseIntChars,
      if_pos (show ('-' :: natDigits i.natAbs).head? = some '-' from rfl)]
    simp only [List.tail_cons, parseNatChars_natDigits]
    show some (-(i.natAbs : Int)) = some i
    congr 1
    omega
  · rw [intChars, if_neg h, parseIntChars]
    rcases hd : natDigits i.natAbs with _ | ⟨c, cs⟩
    · exact absurd hd (natDigits_ne_nil _)
    · have hdig : isDigitCh c = true := by
        apply natDigits_all_digit i.natAbs
        rw [hd]; exact List.mem_cons_self _ _
      have hne : c ≠ '-' := (digit_ne_special hdig).1
      have hh : ¬((c :: cs).head? = some '-') := by
        simp only [List.head?_cons, Option.some.injEq]
        exact hne
      rw [if_neg hh, ← hd, parseNatChars_natDigits]
      show some ((i.natAbs : Int)) = some i
      congr 1
      omega

theorem not_slash_mem_natDigits (n : Nat) : '/' ∉ natDigits n := by
  intro hm
  exact (digit_ne_special (natDigits_all_digit n _ hm)).2.1 rfl

theorem not_slash_mem_intChars (i : Int) : '/' ∉ intChars i := by
  intro hm
  rw [intChars] at hm
  by_cases h : i < 0
  · rw [if_pos h] at hm
    rcases List.mem_cons.mp hm with h1 | h2
    · exact absurd h1 (by decide)
    · exact not_slash_mem_natDigits _ h2
  · rw [if_neg h] at hm
    exact not_slash_mem_natDigits _ hm

theorem ratChars_ne_nil (q : ℚ) : ratChars q ≠ [] := by
  rw [ratChars]
  intro h
  rcases List.append_eq_nil.mp h with ⟨_, h2⟩
  exact List.cons_ne_nil _ _ h2

theorem intChars_mem {c : Char} (i : Int) (h : c ∈ intChars i) :
    c = '-' ∨ isDigitCh c = true := by
  rw [intChars] at h
  by_cases hil : i < 0
  · rw [if_pos hil] at h
    rcases List.mem_cons.mp h with rfl | h2
    · exact Or.inl rfl
    · exact Or.inr (natDigits_all_digit _ _ h2)
  · rw [if_neg hil] at h
    exact Or.inr (natDigits_all_digit _ _ h)

theorem ratChars_mem {c : Char} (q : ℚ) (h : c ∈ ratChars q) :
    isDigitCh c = true ∨ c = '-' ∨ c = '/' := by
  rw [ratChars] at h
  rcases List.mem_append.mp h with h1 | h2
  · rcases intChars_mem _ h1 with h3 | h3
    · exact Or.inr (Or.inl h3)
    · exact Or.inl h3
  · rcases List.mem_cons.mp h2 with rfl | h3
    · exact Or.inr (Or.inr rfl)
    · exact Or.inl (natDigits_all_digit _ _ h3)

theorem ratChars_no_space (q : ℚ) : ' ' ∉ ratChars q := by
  intro h
  rcases ratChars_mem q h with h1 | h1 | h1 <;> revert h1 <;> decide

theorem ratChars_no_bang (q : ℚ) : '!' ∉ ratChars q := by
  intro h
  rcases ratChars_mem q h with h1 | h1 | h1 <;> revert h1 <;> decide

theorem ratChars_no_newline (q : ℚ) : '\n' ∉ ratChars q := by
  intro h
  rcases ratChars_mem q h with h1 | h1 | h1 <;> revert h1 <;> decide

theorem parseRatChars_ratChars (q : ℚ) : parseRatChars (ratChars q) = some q := by
  rw [parseRatChars, ratChars,
    splitOnChar_append_cons _ (not_slash_mem_intChars q.num),
    splitOnChar_not_mem (not_slash_mem_natDigits q.den)]
  simp only [parseIntChars_intChars, parseNatChars_natDigits]
  rw [if_pos q.den_nz, Rat.mkRat_self]

/-! ## Structural lemmas about the element and coefficient scanners -/

theorem readElementsAux_error_of_bad (line : List Char) :
    ∀ ps : List Nat,
      (∃ i ∈ ps, trimChars (slice line i 2) ≠ [] ∧
        parseNatChars (trimChars (slice line (i + 2) 3)) = none) →
      ∃ j ∈ ps, trimChars (slice line j 2) ≠ [] ∧
        parseNatChars (trimChars (slice line (j + 2) 3)) = none ∧
        readElementsAux line ps = .error (slice line j 5) := by
  intro ps
  induction ps with
  | nil =>
    rintro ⟨i, hi, _⟩
    exact absurd hi (List.not_mem_nil i)
  | cons p rest ih =>
    rintro ⟨i, hi, hsym, hcnt⟩
    by_cases hp : trimChars (slice line p 2) = []
    · have hir : i ∈ rest := by
        rcases List.mem_cons.mp hi with rfl | h
        · exact absurd hp hsym
        · exact h
      obtain ⟨j, hj, h1, h2, h3⟩ := ih ⟨i, hir, hsym, hcnt⟩
      refine ⟨j, List.mem_cons_of_mem p hj, h1, h2, ?_⟩
      simp only [readElementsAux, if_pos hp]
      exact h3
    · cases hpc : parseNatChars (trimChars (slice line (p + 2) 3)) with
      | none =>
        refine ⟨p, List.mem_cons_self p rest, hp, hpc, ?_⟩
        simp only [readElementsAux, if_neg hp, hpc]
      | some n =>
        have hir : i ∈ rest := by
          rcases List.mem_cons.mp hi with rfl | h
          · rw [hpc] at hcnt
            exact absurd hcnt (by simp)
          · exact h
        obtain ⟨j, hj, h1, h2, h3⟩ := ih ⟨i, hir, hsym, hcnt⟩
        refine ⟨j, List.mem_cons_of_mem p hj, h1, h2, ?_⟩
        simp only [readElementsAux, if_neg hp, hpc, h3]

theorem parseCoeffs_error_of_bad :
    ∀ fs : List (List Char),
      (∃ f ∈ fs, parseRatSci (trimChars f) = none) →
      ∃ f ∈ fs, parseRatSci (trimChars f) = none ∧
        parseCoeffs fs = .error (floatErrMsg f) := by
  intro fs
  induction fs with
  | nil =>
    rintro ⟨f, hf, _⟩
    exact absurd hf (List.not_mem_nil f)
  | cons g rest ih =>
    rintro ⟨f, hf, hbad⟩
    cases hg : parseRatSci (trimChars g) with
    | none =>
      refine ⟨g, List.mem_cons_self g rest, hg, ?_⟩
      simp only [parseCoeffs, hg]
    | some q =>
      have hfr : f ∈ rest := by
        rcases List.mem_cons.mp hf with rfl | h
        · rw [hg] at hbad
          exact absurd hbad (by simp)
        · exact h
      obtain ⟨j, hj, h1, h2⟩ := ih ⟨f, hfr, hbad⟩
      refine ⟨j, List.mem_cons_of_mem g hj, h1, ?_⟩
      simp only [parseCoeffs, hg, h2]

/-! ## Claim theorems for the thermo-entry parser -/

/-- C1: for a 4-line thermo entry whose temperature-range columns are
blank, calling `readThermoEntry` with explicit caller-supplied
Tmin/Tint/Tmax overrides succeeds: it returns the trimmed species
label, the element-count mapping parsed from the element segments, and
a NASA polynomial object valid over exactly the supplied range. -/
theorem readThermoEntry_trange_override (entry : String) (t1 t2 t3 : ℚ)
    (f : List (String × Nat)) (qs : List ℚ)
    (helem : readElements (entryLine entry 0) = .ok f)
    (hphase : slice (entryLine entry 0) 44 1 = ['G'])
    (hb1 : trimChars (slice (entryLine entry 0) 45 10) = [])
    (hb2 : trimChars (slice (entryLine entry 0) 55 10) = [])
    (hb3 : trimChars (slice (entryLine entry 0) 65 8) = [])
    (hcoeff : parseCoeffs (coeffFields (entryLine entry 1) (entryLine entry 2)
      (entryLine entry 3)) = .ok qs) :
    readThermoEntry entry (some t1) (some t2) (some t3) =
      (.done (labelOf entry) (some ⟨qs.take 7, qs.drop 7, t1, t2, t3⟩) (some f), []) := by
  have htr : readTRange (entryLine entry 0) (some t1) (some t2) (some t3) =
      .ok (t1, t2, t3) := by
    simp only [readTRange, readTField, hb1, hb2, hb3, if_true, eq_self_iff_true]
  simp only [readThermoEntry, helem, hphase, ne_eq, not_true_eq_false, if_false, htr, hcoeff]

/-- Witness for C1 on the fixture of `test_readThermoEntry_NoTRange`:
parsing succeeds with label `C2H6`, formula `H:6, C:2` and a NASA
polynomial over exactly `[100, 827.28, 5000]`. -/
theorem readThermoEntry_trange_override_witness :
    readThermoEntry entryNoTRange (some 100) (some (mkRat 20682 25)) (some 5000) =
      (.done (labelOf entryNoTRange)
        (some ⟨entryNoTRangeCoeffs.take 7, entryNoTRangeCoeffs.drop 7, 100, mkRat 20682 25, 5000⟩)
        (some [("H", 6), ("C", 2)]), []) ∧
    labelOf entryNoTRange = "C2H6" :=
  ⟨readThermoEntry_trange_override entryNoTRange 100 (mkRat 20682 25) 5000
    [("H", 6), ("C", 2)] entryNoTRangeCoeffs (by decide) (by decide) (by decide)
    (by decide) (by decide) (by decide), by decide⟩

/-- C6: for every thermo entry whose phase character is not `G` (and
whose element segments parse), `readThermoEntry` does not raise: it
returns `(originalLabel, null, null)` and emits exactly the warning
`Was expecting gas phase thermo data for <label>. Skipping thermo
data.` containing the parsed species label. -/
theorem readThermoEntry_nonGasPhase (entry : String) (T1 T2 T3 : Option ℚ)
    (f : List (String × Nat))
    (helem : readElements (entryLine entry 0) = .ok f)
    (hphase : slice (entryLine entry 0) 44 1 ≠ ['G']) :
    readThermoEntry entry T1 T2 T3 =
      (.done (labelOf entry) none none,
       [.warning ("Was expecting gas phase thermo data for " ++ labelOf entry ++
         ". Skipping thermo data.")]) := by
  simp only [readThermoEntry, helem, ne_eq, hphase, not_false_eq_true, if_true, phaseMsg]

/-- Witness for C6 on the fixture of `test_readThermoEntry_NotGasPhase`
(phase character `L`): the parsed label is `C2H6` and the result is
the skip tuple with the exact warning. -/
theorem readThermoEntry_nonGasPhase_witness :
    readThermoEntry entryNotGasPhase none none none =
      (.done (labelOf entryNotGasPhase) none none,
       [.warning ("Was expecting gas phase thermo data for " ++ labelOf entryNotGasPhase ++
         ". Skipping thermo data.")]) ∧
    labelOf entryNotGasPhase = "C2H6" :=
  ⟨readThermoEntry_nonGasPhase entryNotGasPhase none none none [("H", 6), ("C", 2)]
    (by decide) (by decide), by decide⟩

/-- C7: for every thermo entry containing an element segment with a
non-empty element symbol but a blank or non-numeric count field,
`readThermoEntry` raises a structural error and logs at info level a
message containing the raw offending line and the offending 5-column
segment text; no result tuple is returned. -/
theorem readThermoEntry_badElementSegment (entry : String) (T1 T2 T3 : Option ℚ)
    (i : Nat) (hi : i ∈ elementPositions)
    (hsym : trimChars (slice (entryLine entry 0) i 2) ≠ [])
    (hcnt : parseNatChars (trimChars (slice (entryLine entry 0) (i + 2) 3)) = none) :
    ∃ j ∈ elementPositions,
      trimChars (slice (entryLine entry 0) j 2) ≠ [] ∧
      parseNatChars (trimChars (slice (entryLine entry 0) (j + 2) 3)) = none ∧
      readThermoEntry entry T1 T2 T3 =
        (.raised,
         [.info ("Trouble reading line \x27" ++ String.mk (trimChars (entryLine entry 0)) ++
           "\x27 element segment \x27" ++
           String.mk (slice (entryLine entry 0) j 5) ++ "\x27")]) := by
  obtain ⟨j, hj, h1, h2, h3⟩ :=
    readElementsAux_error_of_bad (entryLine entry 0) elementPositions ⟨i, hi, hsym, hcnt⟩
  refine ⟨j, hj, h1, h2, ?_⟩
  simp only [readThermoEntry, readElements, h3, troubleMsg]

/-- Witness for C7 on the fixture of
`test_readThermoEntry_BadElementCount` (segment `H   X` at column 24):
the parser raises and logs the exact info message of the test. -/
theorem readThermoEntry_badElementSegment_witness :
    ∃ j ∈ elementPositions,
      trimChars (slice (entryLine entryBadElement 0) j 2) ≠ [] ∧
      parseNatChars (trimChars (slice (entryLine entryBadElement 0) (j + 2) 3)) = none ∧
      readThermoEntry entryBadElement none none none =
        (.raised,
         [.info ("Trouble reading line \x27" ++
           String.mk (trimChars (entryLine entryBadElement 0)) ++
           "\x27 element segment \x27" ++
           String.mk (slice (entryLine entryBadElement 0) j 5) ++ "\x27")]) :=
  readThermoEntry_badElementSegment entryBadElement none none none 24
    (by decide) (by decide) (by decide)

/-- C8: for every gas-phase thermo entry (with parseable elements and
temperature range) having an unparsable float among its fourteen
coefficient fields, `readThermoEntry` returns `(label, null, null)`
and emits a warning whose text equals the exact underlying
numeric-conversion error message. -/
theorem readThermoEntry_floatConversionWarning (entry : String) (T1 T2 T3 : Option ℚ)
    (f : List (String × Nat)) (tr : ℚ × ℚ × ℚ)
    (helem : readElements (entryLine entry 0) = .ok f)
    (hphase : slice (entryLine entry 0) 44 1 = ['G'])
    (htr : readTRange (entryLine entry 0) T1 T2 T3 = .ok tr)
    (hbad : ∃ fld ∈ coeffFields (entryLine entry 1) (entryLine entry 2) (entryLine entry 3),
      parseRatSci (trimChars fld) = none) :
    ∃ fld ∈ coeffFields (entryLine entry 1) (entryLine entry 2) (entryLine entry 3),
      parseRatSci (trimChars fld) = none ∧
      readThermoEntry entry T1 T2 T3 =
        (.done (labelOf entry) none none,
         [.warning ("could not convert string to float: " ++ String.mk (trimChars fld))]) := by
  obtain ⟨fld, hf, h1, h2⟩ := parseCoeffs_error_of_bad _ hbad
  refine ⟨fld, hf, h1, ?_⟩
  obtain ⟨tmin, tmp⟩ := tr
  obtain ⟨tint, tmax⟩ := tmp
  simp only [readThermoEntry, helem, hphase, ne_eq, not_true_eq_false, if_false, htr,
    h2, floatErrMsg]

/-- Witness for C8 on the fixture of `test_readThermoEntry_NotFloat`
(coefficient field `X.44813916E+00`): the result is the skip tuple and
the warning text is the exact conversion error message of the test. -/
theorem readThermoEntry_floatConversionWarning_witness :
    ∃ fld ∈ coeffFields (entryLine entryNotFloat 1) (entryLine entryNotFloat 2)
      (entryLine entryNotFloat 3),
      parseRatSci (trimChars fld) = none ∧
      readThermoEntry entryNotFloat none none none =
        (.done (labelOf entryNotFloat) none none,
         [.warning ("could not convert string to float: " ++ String.mk (trimChars fld))]) :=
  readThermoEntry_floatConversionWarning entryNotFloat none none none
    [("H", 6), ("C", 2)] (100, mkRat 20682 25, 5000) (by decide) (by decide) (by decide)
    ⟨(entryLine entryNotFloat 1).take 15, by decide⟩

/-- Counterexample to C9: on the fixture of
`test_readThermoEntry_NotFloat` — a gas-phase entry whose element
segments parse to `H:6, C:2` but whose first coefficient field fails
float conversion — the third component of the result tuple is `null`,
not the element-count mapping parsed so far (exactly as the unit test
asserts with `assertIsNone(formula)`). -/
theorem readThermoEntry_notFloat_formulaIsNone :
    readElements (entryLine entryNotFloat 0) = .ok [("H", 6), ("C", 2)] ∧
    readThermoEntry entryNotFloat none none none =
      (.done "C2H6" none none,
       [.warning "could not convert string to float: X.44813916E+00"]) ∧
    readThermoEntry entryNotFloat none none none ≠
      (.done "C2H6" none (some [("H", 6), ("C", 2)]),
       [.warning "could not convert string to float: X.44813916E+00"]) := by
  refine ⟨by decide, by decide, ?_⟩
  decide

/-- C9 (amended): when a coefficient field of a gas-phase thermo entry
fails numeric conversion, `readThermoEntry` returns
`(label, null, null)` — the third component of the result is `null`
even though the element counts had already parsed successfully. -/
theorem readThermoEntry_floatConversionFormulaNone (entry : String) (T1 T2 T3 : Option ℚ)
    (f : List (String × Nat)) (tr : ℚ × ℚ × ℚ) (msg : String)
    (helem : readElements (entryLine entry 0) = .ok f)
    (hphase : slice (entryLine entry 0) 44 1 = ['G'])
    (htr : readTRange (entryLine entry 0) T1 T2 T3 = .ok tr)
    (hcoeff : parseCoeffs (coeffFields (entryLine entry 1) (entryLine entry 2)
      (entryLine entry 3)) = .error msg) :
    readThermoEntry entry T1 T2 T3 =
      (.done (labelOf entry) none none, [.warning msg]) := by
  obtain ⟨tmin, tmp⟩ := tr
  obtain ⟨tint, tmax⟩ := tmp
  simp only [readThermoEntry, helem, hphase, ne_eq, not_true_eq_false, if_false, htr, hcoeff]

/-- Witness for the amended C9 on the `test_readThermoEntry_NotFloat`
fixture: elements parsed to `H:6, C:2`, yet the returned formula
component is `null`. -/
theorem readThermoEntry_floatConversionFormulaNone_witness :
    readThermoEntry entryNotFloat none none none =
      (.done (labelOf entryNotFloat) none none,
       [.warning "could not convert string to float: X.44813916E+00"]) :=
  readThermoEntry_floatConversionFormulaNone entryNotFloat none none none
    [("H", 6), ("C", 2)] (100, mkRat 20682 25, 5000)
    "could not convert string to float: X.44813916E+00"
    (by decide) (by decide) (by decide) (by decide)

/-! ## Transport round-trip lemmas -/

theorem mem_joinChar {c : Char} (sep : Char) :
    ∀ toks : List (List Char), c ∈ joinChar sep toks →
      c = sep ∨ ∃ t ∈ toks, c ∈ t := by
  intro toks
  induction toks with
  | nil => intro h; exact absurd h (List.not_mem_nil c)
  | cons x rest ih =>
    intro h
    cases rest with
    | nil =>
      simp only [joinChar] at h
      exact Or.inr ⟨x, List.mem_cons_self x [], h⟩
    | cons y ys =>
      simp only [joinChar] at h
      rcases List.mem_append.mp h with h1 | h2
      · exact Or.inr ⟨x, List.mem_cons_self x _, h1⟩
      · rcases List.mem_cons.mp h2 with rfl | h3
        · exact Or.inl rfl
        · rcases ih h3 with h4 | ⟨t, ht, hc⟩
          · exact Or.inl h4
          · exact Or.inr ⟨t, List.mem_cons_of_mem x ht, hc⟩

theorem splitOnChar_joinChar_of_not_mem {sep : Char} :
    ∀ toks : List (List Char), toks ≠ [] → (∀ t ∈ toks, sep ∉ t) →
      splitOnChar sep (joinChar sep toks) = toks := by
  intro toks
  induction toks with
  | nil => intro h; exact absurd rfl h
  | cons x rest ih =>
    intro _ hsep
    cases rest with
    | nil =>
      simp only [joinChar]
      exact splitOnChar_not_mem (hsep x (List.mem_cons_self x []))
    | cons y ys =>
      simp only [joinChar]
      rw [splitOnChar_append_cons _ (hsep x (List.mem_cons_self x _))]
      rw [ih (by simp) (fun t ht => hsep t (List.mem_cons_of_mem x ht))]

theorem joinChar_append_singleton (sep : Char) (z : List Char) :
    ∀ toks : List (List Char), toks ≠ [] →
      joinChar sep (toks ++ [z]) = joinChar sep toks ++ sep :: z := by
  intro toks
  induction toks with
  | nil => intro h; exact absurd rfl h
  | cons x rest ih =>
    intro _
    cases rest with
    | nil => simp [joinChar]
    | cons y ys =>
      have hrec := ih (by simp)
      simp only [List.cons_append] at hrec
      show x ++ sep :: joinChar sep (y :: (ys ++ [z])) =
        (x ++ sep :: joinChar sep (y :: ys)) ++ sep :: z
      rw [hrec]
      simp [List.append_assoc]

theorem parseTransportLine_transportLine (lab : String) (td : TransportData)
    (hlab0 : lab.data ≠ [])
    (hlab : ∀ c ∈ lab.data, c ≠ ' ' ∧ c ≠ '!' ∧ c ≠ '\n') :
    parseTransportLine (transportLine lab td) = some (lab, td) := by
  have htokne : ∀ t ∈ transportTokens lab td, t ≠ [] := by
    intro t ht
    simp only [transportTokens, List.mem_cons] at ht
    rcases ht with rfl | rfl | rfl | rfl | rfl | rfl | rfl | h
    · exact hlab0
    · exact natDigits_ne_nil _
    · exact ratChars_ne_nil _
    · exact ratChars_ne_nil _
    · exact ratChars_ne_nil _
    · exact ratChars_ne_nil _
    · exact ratChars_ne_nil _
    · exact absurd h (List.not_mem_nil t)
  have htoksp : ∀ t ∈ transportTokens lab td, ' ' ∉ t := by
    intro t ht hc
    simp only [transportTokens, List.mem_cons] at ht
    rcases ht with rfl | rfl | rfl | rfl | rfl | rfl | rfl | h
    · exact (hlab _ hc).1 rfl
    · exact (digit_ne_special (natDigits_all_digit _ _ hc)).2.2.1 rfl
    · exact ratChars_no_space _ hc
    · exact ratChars_no_space _ hc
    · exact ratChars_no_space _ hc
    · exact ratChars_no_space _ hc
    · exact ratChars_no_space _ hc
    · exact absurd h (List.not_mem_nil t)
  have htokbang : ∀ t ∈ transportTokens lab td, '!' ∉ t := by
    intro t ht hc
    simp only [transportTokens, List.mem_cons] at ht
    rcases ht with rfl | rfl | rfl | rfl | rfl | rfl | rfl | h
    · exact (hlab _ hc).2.1 rfl
    · exact (digit_ne_special (natDigits_all_digit _ _ hc)).2.2.2.1 rfl
    · exact ratChars_no_bang _ hc
    · exact ratChars_no_bang _ hc
    · exact ratChars_no_bang _ hc
    · exact ratChars_no_bang _ hc
    · exact ratChars_no_bang _ hc
    · exact absurd h (List.not_mem_nil t)
  have hpre : '!' ∉ joinChar ' ' (transportTokens lab td) ++ [' '] := by
    intro hc
    rcases List.mem_append.mp hc with h1 | h2
    · rcases mem_joinChar ' ' _ h1 with h3 | ⟨t, ht, h4⟩
      · exact absurd h3 (by decide)
      · exact htokbang t ht h4
    · rcases List.mem_singleton.mp h2 with h3
      exact absurd h3 (by decide)
  have hshape : transportLine lab td =
      (joinChar ' ' (transportTokens lab td) ++ [' ']) ++ '!' :: ' ' :: td.comment.data := by
    simp [transportLine]
  rw [parseTransportLine, hshape, splitOnChar_append_cons _ hpre]
  rcases hsp : splitOnChar '!' (' ' :: td.comment.data) with _ | ⟨b1, bs⟩
  · exact absurd hsp (splitOnChar_ne_nil _ _)
  · have hjoin : joinChar '!' (b1 :: bs) = ' ' :: td.comment.data := by
      rw [← hsp, joinChar_splitOnChar]
    simp only [hjoin]
    have hsplitsp : splitOnChar ' ' (joinChar ' ' (transportTokens lab td) ++ [' ']) =
        transportTokens lab td ++ [[]] := by
      have h1 : joinChar ' ' (transportTokens lab td) ++ [' '] =
          joinChar ' ' (transportTokens lab td ++ [[]]) := by
        rw [joinChar_append_singleton _ _ _ (by simp [transportTokens])]
      rw [h1]
      apply splitOnChar_joinChar_of_not_mem _ (by simp)
      intro t ht
      rcases List.mem_append.mp ht with h1 | h2
      · exact htoksp t h1
      · rcases List.mem_singleton.mp h2 with rfl
        exact List.not_mem_nil _
    rw [hsplitsp, List.filter_append]
    have hf1 : (transportTokens lab td).filter (fun t => decide (t ≠ [])) =
        transportTokens lab td := by
      apply List.filter_eq_self.mpr
      intro t ht
      exact decide_eq_true (htokne t ht)
    have hf2 : List.filter (fun t => decide (t ≠ [])) [([] : List Char)] = [] := by rfl
    rw [hf1, hf2, List.append_nil]
    simp only [transportTokens]
    rw [parseNatChars_natDigits, parseRatChars_ratChars, parseRatChars_ratChars,
      parseRatChars_ratChars, parseRatChars_ratChars, parseRatChars_ratChars]

theorem data_stringMk (l : List Char) : (String.mk l).data = l := rfl

/-- C2: for every species with a transport record, writing its
transport record with `saveTransportFile` and then reading the file
back with `loadTransportFile` into a fresh species object of the same
label yields a species field-for-field equal to the original (the
write-then-read round trip reproduces an equal transport record).
The label must be a well-formed CHEMKIN species name (non-empty, no
whitespace or comment markers) and the free-text comment must be a
single line. -/
theorem transport_write_read_roundtrip (s : Species) (td : TransportData)
    (hs : s.transportData = some td)
    (hlab0 : s.label.data ≠ [])
    (hlab : ∀ c ∈ s.label.data, c ≠ ' ' ∧ c ≠ '!' ∧ c ≠ '\n')
    (hcom : ∀ c ∈ td.comment.data, c ≠ '\n') :
    loadTransportFile (saveTransportFile [s])
      [(s.label, { s with transportData := none })] = [(s.label, s)] := by
  have hline : '\n' ∉ transportLine s.label td := by
    intro hc
    rw [transportLine] at hc
    rcases List.mem_append.mp hc with h1 | h2
    · rcases mem_joinChar ' ' _ h1 with h3 | ⟨t, ht, h4⟩
      · exact absurd h3 (by decide)
      · simp only [transportTokens, List.mem_cons] at ht
        rcases ht with rfl | rfl | rfl | rfl | rfl | rfl | rfl | h
        · exact (hlab _ h4).2.2 rfl
        · exact (digit_ne_special (natDigits_all_digit _ _ h4)).2.2.2.2.1 rfl
        · exact ratChars_no_newline _ h4
        · exact ratChars_no_newline _ h4
        · exact ratChars_no_newline _ h4
        · exact ratChars_no_newline _ h4
        · exact ratChars_no_newline _ h4
        · exact absurd h (List.not_mem_nil t)
    · rcases List.mem_cons.mp h2 with h3 | h3
      · exact absurd h3 (by decide)
      · rcases List.mem_cons.mp h3 with h4 | h4
        · exact absurd h4 (by decide)
        · rcases List.mem_cons.mp h4 with h5 | h5
          · exact absurd h5 (by decide)
          · exact (hcom _ h5) rfl
  have hsave : saveTransportFile [s] = String.mk (transportLine s.label td) := by
    simp [saveTransportFile, hs, joinChar]
  rw [hsave, loadTransportFile, data_stringMk, splitOnChar_not_mem hline]
  simp only [List.foldl_cons, List.foldl_nil]
  rw [parseTransportLine_transportLine s.label td hlab0 hlab]
  obtain ⟨lab, ckn, rea, idx, adj, trd⟩ := s
  simp only [Species.transportData] at hs
  subst hs
  simp [setTransport]

/-- Witness for C2 on the `Ar` fixture of
`testTransportDataReadAndWrite`: the fresh same-label species equals
the original after the write-then-read round trip. -/
theorem transport_write_read_roundtrip_witness :
    loadTransportFile (saveTransportFile [arSpecies])
      [("Ar", { arSpecies with transportData := none })] = [("Ar", arSpecies)] :=
  transport_write_read_roundtrip arSpecies tdAr rfl (by decide) (by decide) (by decide)

/-! ## Family-annotation lemmas -/

theorem data_append (a b : String) : (a ++ b).data = a.data ++ b.data := rfl

theorem dropPref_append : ∀ p r : List Char, dropPref p (p ++ r) = some r := by
  intro p
  induction p with
  | nil => intro r; rfl
  | cons c cs ih =>
    intro r
    simp only [List.cons_append, dropPref, if_pos rfl]
    exact ih r

theorem parseTemplateComment_head (name : String) :
    parseTemplateComment (templateHead ++ name) = some name := by
  rw [parseTemplateComment, data_append, dropPref_append]

theorem parseTemplateComment_headOld (name : String) :
    parseTemplateComment (templateHeadOld ++ name) = some name := by
  rw [parseTemplateComment, data_append]
  have hfail : dropPref templateHead.data (templateHeadOld.data ++ name.data) = none := by
    rcases hd : name.data with _ | ⟨c, cs⟩ <;> simp [templateHead, templateHeadOld, dropPref]
  rw [hfail]
  have : dropPref templateHeadOld.data (templateHeadOld.data ++ name.data) = some name.data :=
    dropPref_append _ _
  rw [this]

theorem extractFamily_insert_none :
    ∀ (pre : List String) (post : List String) (l : String),
      parseTemplateComment l = none →
      extractFamily (pre ++ l :: post) = extractFamily (pre ++ post) := by
  intro pre
  induction pre with
  | nil =>
    intro post l h
    simp only [List.nil_append, extractFamily, h]
  | cons p ps ih =>
    intro post l h
    simp only [List.cons_append, extractFamily]
    cases parseTemplateComment p with
    | some f => rfl
    | none => exact ih post l h

theorem extractFamily_finds :
    ∀ (pre : List String) (post : List String) (line name : String),
      (∀ l ∈ pre, parseTemplateComment l = none) →
      parseTemplateComment line = some name →
      extractFamily (pre ++ line :: post) = some name := by
  intro pre
  induction pre with
  | nil =>
    intro post line name _ hline
    simp only [List.nil_append, extractFamily, hline]
  | cons p ps ih =>
    intro post line name hpre hline
    have hp : parseTemplateComment p = none := hpre p (List.mem_cons_self p ps)
    simp only [List.cons_append, extractFamily, hp]
    exact ih post line name (fun l hl => hpre l (List.mem_cons_of_mem p hl)) hline

/-! ## Claim theorems for the mechanism reader/writer -/

/-- C4: when `loadChemkinFile` parses a reaction whose trailing
comment block carries a line of the exact form
`! Template reaction: <FamilyName>` (or `!Template reaction:
<FamilyName>`), with no earlier template-form line, the family attribute of the resulting
reaction equals `<FamilyName>`; and comment lines
not matching the pattern never alter the extracted family. -/
theorem loadChemkinFile_family_extraction :
    (∀ (mech : MechFile) (dict : List (String × DictEntry)) (ucn : Bool) (i : Nat)
      (h : i < mech.reactionEntries.length) (pre post : List String) (line name : String),
      (mech.reactionEntries.get ⟨i, h⟩).comments = pre ++ line :: post →
      (line = templateHead ++ name ∨ line = templateHeadOld ++ name) →
      (∀ l ∈ pre, parseTemplateComment l = none) →
      ∃ h2 : i < (loadChemkinFile mech dict ucn).2.length,
        ((loadChemkinFile mech dict ucn).2.get ⟨i, h2⟩).family = some name) ∧
    (∀ (pre post : List String) (l : String), parseTemplateComment l = none →
      extractFamily (pre ++ l :: post) = extractFamily (pre ++ post)) := by
  constructor
  · intro mech dict ucn i h pre post line name hc hline hpre
    have hlen : (loadChemkinFile mech dict ucn).2.length = mech.reactionEntries.length := by
      simp [loadChemkinFile]
    refine ⟨by rw [hlen]; exact h, ?_⟩
    have hget : (loadChemkinFile mech dict ucn).2.get ⟨i, by rw [hlen]; exact h⟩ =
        ⟨(mech.reactionEntries.get ⟨i, h⟩).reactants.map (normalizeName mech dict ucn),
         (mech.reactionEntries.get ⟨i, h⟩).products.map (normalizeName mech dict ucn),
         (mech.reactionEntries.get ⟨i, h⟩).kinetics,
         extractFamily (mech.reactionEntries.get ⟨i, h⟩).comments⟩ := by
      simp [loadChemkinFile, List.get_eq_getElem]
    rw [hget]
    show extractFamily (mech.reactionEntries.get ⟨i, h⟩).comments = some name
    rw [hc]
    have hparse : parseTemplateComment line = some name := by
      rcases hline with rfl | rfl
      · exact parseTemplateComment_head name
      · exact parseTemplateComment_headOld name
    exact extractFamily_finds pre post line name hpre hparse
  · exact extractFamily_insert_none

/-- Witness for C4: on the concrete fixture the reaction family is
extracted as `R_Recombination`, the preceding free-text comment
notwithstanding. -/
theorem loadChemkinFile_family_extraction_witness :
    ∃ h2 : 0 < (loadChemkinFile mechC4 [] true).2.length,
      ((loadChemkinFile mechC4 [] true).2.get ⟨0, h2⟩).family = some "R_Recombination" :=
  loadChemkinFile_family_extraction.1 mechC4 [] true 0 (by decide)
    ["! generated by ratelib"] [] ("! Template reaction: " ++ "R_Recombination")
    "R_Recombination" (by decide) (Or.inl rfl) (by decide)

/-- C5: after `loadChemkinFile`, every species of the default inert
set that appears (by its in-file name) as a reactant or product of
some parsed reaction has its reactive flag set to true, and when its
label collides with another declared species its identifier from
`getSpeciesIdentifier` carries a numeric disambiguation suffix in
parentheses. -/
theorem loadChemkinFile_inert_reactive_identifier (mech : MechFile)
    (dict : List (String × DictEntry)) (ucn : Bool) (s : Species)
    (hs : s ∈ (loadChemkinFile mech dict ucn).1) :
    (s.label ∈ defaultInertList → s.chemkinName ∈ usedNames mech → s.reactive = true) ∧
    (2 ≤ (mechLabels mech dict ucn).count s.label →
      ∃ n, getSpeciesIdentifier s = String.mk (s.label.data ++ '(' :: natDigits n ++ [')'])) := by
  simp only [loadChemkinFile] at hs
  obtain ⟨pe, hmem, hEq⟩ := List.mem_map.mp hs
  obtain ⟨pos, e⟩ := pe
  subst hEq
  constructor
  · intro _ hused
    simp only [mkSpecies] at hused ⊢
    rw [if_pos hused]
    simp
  · intro hcount
    simp only [mkSpecies] at hcount ⊢
    cases hidx : entryIdx e with
    | some n =>
      refine ⟨n, ?_⟩
      simp [getSpeciesIdentifier, hidx]
    | none =>
      refine ⟨pos, ?_⟩
      simp [getSpeciesIdentifier, hidx, if_pos hcount]

/-- Witness for C5 on the `NC`-style fixture: the default-inert `N2`
is reactive because it reacts, its label is `N2`, and its identifier
is `N2(35)`. -/
theorem loadChemkinFile_inert_reactive_identifier_witness :
    n2Loaded.reactive = true ∧ n2Loaded.label = "N2" ∧
    getSpeciesIdentifier n2Loaded = "N2(35)" := by
  have h := loadChemkinFile_inert_reactive_identifier mechNC [] true n2Loaded (by decide)
  exact ⟨h.1 (by decide) (by decide), by decide, by decide⟩

/-- C10: for every species list and reaction list, `saveChemkinFile`
and `saveSpeciesDictionary` create a file at the given output path
(the path exists as a regular file afterwards), for every combination
of the `verbose`, `checkForDuplicates` and `oldStyle` options. -/
theorem save_creates_files (fs : FileSystem) (p1 p2 : String)
    (species : List Species) (reactions : List Reaction)
    (verbose checkForDuplicates oldStyle : Bool) :
    isFile (saveChemkinFileFS fs p1 species reactions verbose checkForDuplicates) p1 = true ∧
    isFile (saveSpeciesDictionaryFS fs p2 species oldStyle) p2 = true ∧
    isFile (saveSpeciesDictionaryFS
      (saveChemkinFileFS fs p1 species reactions verbose checkForDuplicates)
      p2 species oldStyle) p2 = true := by
  refine ⟨?_, ?_, ?_⟩ <;>
    simp [isFile, saveChemkinFileFS, saveSpeciesDictionaryFS, writeFile]

/-! ## Round-trip support: identifiers and positions -/

theorem takeWhile_append_all {α : Type} (p : α → Bool) :
    ∀ (xs : List α) (y : α) (ys : List α), (∀ c ∈ xs, p c = true) → p y = false →
      ((xs ++ y :: ys).takeWhile p = xs) := by
  intro xs
  induction xs with
  | nil =>
    intro y ys _ hy
    simp [List.takeWhile_cons, hy]
  | cons x rest ih =>
    intro y ys hall hy
    have hx : p x = true := hall x (List.mem_cons_self x rest)
    simp only [List.cons_append, List.takeWhile_cons, hx]
    rw [ih y ys (fun c hc => hall c (List.mem_cons_of_mem x hc)) hy]
    simp

theorem dropWhile_append_all {α : Type} (p : α → Bool) :
    ∀ (xs : List α) (y : α) (ys : List α), (∀ c ∈ xs, p c = true) → p y = false →
      ((xs ++ y :: ys).dropWhile p = y :: ys) := by
  intro xs
  induction xs with
  | nil =>
    intro y ys _ hy
    simp [List.dropWhile_cons, hy]
  | cons x rest ih =>
    intro y ys hall hy
    have hx : p x = true := hall x (List.mem_cons_self x rest)
    simp only [List.cons_append, List.dropWhile_cons, hx, if_true]
    exact ih y ys (fun c hc => hall c (List.mem_cons_of_mem x hc)) hy

theorem splitIdentifier_mk (stem : List Char) (n : Nat) :
    splitIdentifier (String.mk (stem ++ '(' :: natDigits n ++ [')'])) =
      (String.mk stem, some n) := by
  have hrev : (stem ++ '(' :: natDigits n ++ [')']).reverse =
      ')' :: ((natDigits n).reverse ++ '(' :: stem.reverse) := by
    simp [List.reverse_append]
  have hdigits : ∀ c ∈ (natDigits n).reverse, isDigitCh c = true := by
    intro c hc
    exact natDigits_all_digit n c (List.mem_reverse.mp hc)
  have hpar : isDigitCh '(' = false := by decide
  rw [splitIdentifier, data_stringMk, hrev, splitIdentifierAux]
  rw [dropWhile_append_all _ _ _ _ hdigits hpar,
    takeWhile_append_all _ _ _ _ hdigits hpar]
  have hne : (natDigits n).reverse ≠ [] := by
    intro h
    exact natDigits_ne_nil n (List.reverse_eq_nil_iff.mp h)
  simp [hne, List.reverse_reverse, parseNatChars_natDigits]

theorem splitIdentifier_of_snd_none {x : String} (h : (splitIdentifier x).2 = none) :
    splitIdentifier x = (x, none) := by
  rw [splitIdentifier] at h ⊢
  cases haux : splitIdentifierAux x.data.reverse with
  | none => rfl
  | some p =>
    rw [haux] at h
    exact absurd h (by simp)

/-- The identifier `getSpeciesIdentifier` depends only on label and index. -/
theorem getSpeciesIdentifier_eq_of (s t : Species) (hl : s.label = t.label)
    (hi : s.index = t.index) : getSpeciesIdentifier s = getSpeciesIdentifier t := by
  rw [getSpeciesIdentifier, getSpeciesIdentifier, hl, hi]

theorem splitIdentifier_getSpeciesIdentifier (s : Species)
    (hlab : (splitIdentifier s.label).2 = none) :
    splitIdentifier (getSpeciesIdentifier s) = (s.label, s.index) := by
  cases hidx : s.index with
  | none =>
    rw [getSpeciesIdentifier, hidx]
    exact splitIdentifier_of_snd_none hlab
  | some n =>
    rw [getSpeciesIdentifier, hidx, splitIdentifier_mk]

theorem lookupAssoc_map_key {α β : Type} (key : α → String) (val : α → β) :
    ∀ (l : List α), (l.map key).Nodup → ∀ a ∈ l,
      lookupAssoc (l.map (fun x => (key x, val x))) (key a) = some (val a) := by
  intro l
  induction l with
  | nil =>
    intro _ a ha
    exact absurd ha (List.not_mem_nil a)
  | cons x rest ih =>
    intro hnd a ha
    simp only [List.map_cons, List.nodup_cons] at hnd
    rcases List.mem_cons.mp ha with rfl | hmem
    · simp [lookupAssoc]
    · have hne : key x ≠ key a := by
        intro hEq
        exact hnd.1 (hEq ▸ List.mem_map_of_mem key hmem)
      simp only [List.map_cons, lookupAssoc, if_neg hne]
      exact ih hnd.2 a hmem

theorem withIdx_length {α : Type} : ∀ (i : Nat) (l : List α), (withIdx i l).length = l.length := by
  intro i l
  induction l generalizing i with
  | nil => rfl
  | cons x xs ih => simp [withIdx, ih]

theorem withIdx_get {α : Type} :
    ∀ (l : List α) (i j : Nat) (h : j < l.length) (h2 : j < (withIdx i l).length),
      (withIdx i l).get ⟨j, h2⟩ = (i + j, l.get ⟨j, h⟩) := by
  intro l
  induction l with
  | nil =>
    intro i j h _
    exact absurd h (Nat.not_lt_zero j)
  | cons x xs ih =>
    intro i j h h2
    cases j with
    | zero => simp [withIdx]
    | succ k =>
      have hk : k < xs.length := Nat.lt_of_succ_lt_succ h
      have hk2 : k < (withIdx (i + 1) xs).length := by
        rw [withIdx_length]; exact hk
      show (withIdx (i + 1) xs).get ⟨k, hk2⟩ = _
      rw [ih (i + 1) k hk hk2]
      simp [Nat.add_assoc, Nat.add_comm 1 k]

theorem mem_withIdx {α : Type} :
    ∀ (l : List α) (i : Nat) (p : Nat × α), p ∈ withIdx i l →
      ∃ (j : Nat) (h : j < l.length), p.1 = i + j ∧ p.2 = l.get ⟨j, h⟩ := by
  intro l
  induction l with
  | nil =>
    intro i p hp
    exact absurd hp (List.not_mem_nil p)
  | cons x xs ih =>
    intro i p hp
    rcases List.mem_cons.mp hp with rfl | hmem
    · exact ⟨0, by simp, by simp, rfl⟩
    · obtain ⟨j, hj, h1, h2⟩ := ih (i + 1) p hmem
      refine ⟨j + 1, by simpa using hj, by omega, ?_⟩
      rw [h2]
      rfl

theorem findEntryAux_withIdx :
    ∀ (es : List SpeciesEntry) (i : Nat) (n : String) (pos : Nat) (e : SpeciesEntry),
      findEntryAux i es n = some (pos, e) → (pos, e) ∈ withIdx i es ∧ e.name = n := by
  intro es
  induction es with
  | nil =>
    intro i n pos e h
    exact absurd h (by simp [findEntryAux])
  | cons x xs ih =>
    intro i n pos e h
    rw [findEntryAux] at h
    by_cases hx : x.name = n
    · rw [if_pos hx] at h
      have h1 : (i, x) = (pos, e) := Option.some.inj h
      cases h1
      exact ⟨List.mem_cons_self _ _, hx⟩
    · rw [if_neg hx] at h
      obtain ⟨hm, hn⟩ := ih (i + 1) n pos e h
      exact ⟨List.mem_cons_of_mem _ hm, hn⟩

theorem findEntryAux_isSome :
    ∀ (es : List SpeciesEntry) (i : Nat) (n : String), (∃ e ∈ es, e.name = n) →
      ∃ pos e, findEntryAux i es n = some (pos, e) := by
  intro es
  induction es with
  | nil =>
    rintro i n ⟨e, he, _⟩
    exact absurd he (List.not_mem_nil e)
  | cons x xs ih =>
    rintro i n ⟨e, he, hn⟩
    by_cases hx : x.name = n
    · exact ⟨i, x, by rw [findEntryAux, if_pos hx]⟩
    · rcases List.mem_cons.mp he with rfl | hmem
      · exact absurd hn hx
      · obtain ⟨pos, e2, h2⟩ := ih (i + 1) n ⟨e, hmem, hn⟩
        exact ⟨pos, e2, by rw [findEntryAux, if_neg hx]; exact h2⟩

theorem findEntryAux_of_nodup :
    ∀ (es : List SpeciesEntry) (i : Nat), (es.map SpeciesEntry.name).Nodup →
      ∀ (j : Nat) (h : j < es.length),
        findEntryAux i es (es.get ⟨j, h⟩).name = some (i + j, es.get ⟨j, h⟩) := by
  intro es
  induction es with
  | nil =>
    intro i _ j h
    exact absurd h (Nat.not_lt_zero j)
  | cons x xs ih =>
    intro i hnd j h
    simp only [List.map_cons, List.nodup_cons] at hnd
    cases j with
    | zero =>
      simp [findEntryAux]
    | succ k =>
      have hk : k < xs.length := Nat.lt_of_succ_lt_succ h
      have hget : (x :: xs).get ⟨k + 1, h⟩ = xs.get ⟨k, hk⟩ := rfl
      rw [hget, findEntryAux]
      have hne : x.name ≠ (xs.get ⟨k, hk⟩).name := by
        intro hEq
        exact hnd.1 (hEq ▸ List.mem_map_of_mem SpeciesEntry.name (xs.get_mem k hk))
      rw [if_neg hne, ih (i + 1) hnd.2 k hk]
      have harith : i + 1 + k = i + (k + 1) := by omega
      rw [harith]

/-! ## Round-trip support: the loaded species list -/

theorem withIdx_map_snd {α : Type} : ∀ (i : Nat) (l : List α),
    (withIdx i l).map Prod.snd = l := by
  intro i l
  induction l generalizing i with
  | nil => rfl
  | cons x xs ih => simp [withIdx, ih]

theorem loadChemkinFile_fst_length (mech : MechFile) (dict : List (String × DictEntry))
    (ucn : Bool) :
    (loadChemkinFile mech dict ucn).1.length = mech.speciesEntries.length := by
  simp [loadChemkinFile, withIdx_length]

theorem loadChemkinFile_fst_get (mech : MechFile) (dict : List (String × DictEntry))
    (ucn : Bool) (i : Nat) (h : i < mech.speciesEntries.length)
    (h2 : i < (loadChemkinFile mech dict ucn).1.length) :
    (loadChemkinFile mech dict ucn).1.get ⟨i, h2⟩ =
      mkSpecies mech dict ucn i (mech.speciesEntries.get ⟨i, h⟩) := by
  simp only [loadChemkinFile, List.get_eq_getElem, List.getElem_map]
  have hw : i < (withIdx 0 mech.speciesEntries).length := by
    rw [withIdx_length]; exact h
  have hg := withIdx_get mech.speciesEntries 0 i h hw
  rw [show (withIdx 0 mech.speciesEntries)[i] =
    (withIdx 0 mech.speciesEntries).get ⟨i, hw⟩ from rfl, hg]
  simp

theorem loadChemkinFile_fst_mem {mech : MechFile} {dict : List (String × DictEntry)}
    {ucn : Bool} {s : Species} (hs : s ∈ (loadChemkinFile mech dict ucn).1) :
    ∃ (pos : Nat) (h : pos < mech.speciesEntries.length),
      s = mkSpecies mech dict ucn pos (mech.speciesEntries.get ⟨pos, h⟩) := by
  simp only [loadChemkinFile] at hs
  obtain ⟨pe, hmem, hEq⟩ := List.mem_map.mp hs
  obtain ⟨j, hj, h1, h2⟩ := mem_withIdx _ 0 pe hmem
  refine ⟨j, hj, ?_⟩
  rw [← hEq, h2, h1, Nat.zero_add]

theorem mkSpecies_mem_load (mech : MechFile) (dict : List (String × DictEntry))
    (ucn : Bool) (pos : Nat) (h : pos < mech.speciesEntries.length) :
    mkSpecies mech dict ucn pos (mech.speciesEntries.get ⟨pos, h⟩) ∈
      (loadChemkinFile mech dict ucn).1 := by
  have h2 : pos < (loadChemkinFile mech dict ucn).1.length := by
    rw [loadChemkinFile_fst_length]; exact h
  rw [← loadChemkinFile_fst_get mech dict ucn pos h h2]
  exact List.get_mem _ _ _

theorem loadChemkinFile_fst_labels (mech : MechFile) (dict : List (String × DictEntry))
    (ucn : Bool) :
    (loadChemkinFile mech dict ucn).1.map Species.label = mechLabels mech dict ucn := by
  simp only [loadChemkinFile, mechLabels, List.map_map]
  have h1 : (Species.label ∘ fun pe : Nat × SpeciesEntry => mkSpecies mech dict ucn pe.1 pe.2)
      = (labelOfEntry dict ucn ∘ Prod.snd) := rfl
  rw [h1, ← List.map_map, withIdx_map_snd]

theorem mkSpecies_index_none_count {mech : MechFile} {dict : List (String × DictEntry)}
    {ucn : Bool} {pos : Nat} {e : SpeciesEntry}
    (h : (mkSpecies mech dict ucn pos e).index = none) :
    entryIdx e = none ∧
      ¬ 2 ≤ (mechLabels mech dict ucn).count (labelOfEntry dict ucn e) := by
  simp only [mkSpecies] at h
  cases hidx : entryIdx e with
  | some m =>
    rw [hidx] at h
    exact absurd h (by simp)
  | none =>
    rw [hidx] at h
    by_cases hc : 2 ≤ (mechLabels mech dict ucn).count (labelOfEntry dict ucn e)
    · rw [if_pos hc] at h
      exact absurd h (by simp)
    · exact ⟨rfl, hc⟩

/-! ## Round-trip support: the saved files -/

theorem entryStem_saved (s : Species) (hlab : (splitIdentifier s.label).2 = none) :
    entryStem ⟨getSpeciesIdentifier s⟩ = s.label := by
  rw [entryStem]
  show (splitIdentifier (getSpeciesIdentifier s)).1 = s.label
  rw [splitIdentifier_getSpeciesIdentifier s hlab]

theorem entryIdx_saved (s : Species) (hlab : (splitIdentifier s.label).2 = none) :
    entryIdx ⟨getSpeciesIdentifier s⟩ = s.index := by
  rw [entryIdx]
  show (splitIdentifier (getSpeciesIdentifier s)).2 = s.index
  rw [splitIdentifier_getSpeciesIdentifier s hlab]

theorem lookupAssoc_saveDict :
    ∀ (sp : List Species) (oldSty : Bool) (s : Species),
      (sp.map getSpeciesIdentifier).Nodup → s ∈ sp →
      lookupAssoc (saveSpeciesDictionary sp oldSty) (getSpeciesIdentifier s) =
        some (DictEntry.mk s.label
          (match s.adjacency with | some a => a | none => "")) := by
  intro sp
  induction sp with
  | nil =>
    intro _ s _ hs
    exact absurd hs (List.not_mem_nil s)
  | cons x rest ih =>
    intro oldSty s hnd hs
    simp only [List.map_cons, List.nodup_cons] at hnd
    simp only [saveSpeciesDictionary, List.map_cons, lookupAssoc]
    rcases List.mem_cons.mp hs with rfl | hmem
    · rw [if_pos rfl]
    · have hne : getSpeciesIdentifier x ≠ getSpeciesIdentifier s := fun hEq =>
        hnd.1 (hEq ▸ List.mem_map_of_mem _ hmem)
      rw [if_neg hne]
      have hrec := ih oldSty s hnd.2 hmem
      simpa [saveSpeciesDictionary] using hrec

theorem labelOfEntry_saved (sp : List Species) (oldSty ucn : Bool) (s : Species)
    (hmem : s ∈ sp) (hids : (sp.map getSpeciesIdentifier).Nodup)
    (hlab : (splitIdentifier s.label).2 = none) :
    labelOfEntry (saveSpeciesDictionary sp oldSty) ucn ⟨getSpeciesIdentifier s⟩ = s.label := by
  rw [labelOfEntry]
  by_cases hucn : ucn
  · rw [if_pos hucn]
    exact entryStem_saved s hlab
  · rw [if_neg hucn]
    show (match lookupAssoc (saveSpeciesDictionary sp oldSty)
      (SpeciesEntry.mk (getSpeciesIdentifier s)).name with
      | some d => d.label
      | none => entryStem ⟨getSpeciesIdentifier s⟩) = s.label
    rw [show (SpeciesEntry.mk (getSpeciesIdentifier s)).name = getSpeciesIdentifier s from rfl,
      lookupAssoc_saveDict sp oldSty s hids hmem]

theorem mechLabels_saved (sp : List Species) (rx : List Reaction)
    (v c oldSty ucn : Bool)
    (hids : (sp.map getSpeciesIdentifier).Nodup)
    (hlab : ∀ s ∈ sp, (splitIdentifier s.label).2 = none) :
    mechLabels (saveChemkinFile sp rx v c) (saveSpeciesDictionary sp oldSty) ucn =
      sp.map Species.label := by
  simp only [mechLabels, saveChemkinFile, List.map_map]
  apply List.map_congr_left
  intro s hs
  show labelOfEntry (saveSpeciesDictionary sp oldSty) ucn ⟨getSpeciesIdentifier s⟩ = s.label
  exact labelOfEntry_saved sp oldSty ucn s hs hids (hlab s hs)

theorem namesOfReactions_map (f : ReactionEntry → ReactionEntry) (g : String → String)
    (hf : ∀ re, (f re).reactants = re.reactants.map g ∧ (f re).products = re.products.map g) :
    ∀ res : List ReactionEntry,
      namesOfReactions (res.map f) = (namesOfReactions res).map g := by
  intro res
  induction res with
  | nil => rfl
  | cons re rest ih =>
    simp only [List.map_cons, namesOfReactions, (hf re).1, (hf re).2, ih, List.map_append]

theorem usedNames_roundtrip (mech : MechFile) (dict : List (String × DictEntry))
    (ucn v c : Bool) :
    usedNames (saveChemkinFile (loadChemkinFile mech dict ucn).1
      (loadChemkinFile mech dict ucn).2 v c) =
      (usedNames mech).map (normalizeName mech dict ucn) := by
  simp only [usedNames, saveChemkinFile, loadChemkinFile, List.map_map]
  exact namesOfReactions_map _ (normalizeName mech dict ucn)
    (fun re => ⟨rfl, rfl⟩) mech.reactionEntries

theorem normalizeName_of_entry (mech : MechFile) (dict : List (String × DictEntry))
    (ucn : Bool) (hnames : (mech.speciesEntries.map SpeciesEntry.name).Nodup)
    (i : Nat) (h : i < mech.speciesEntries.length) :
    normalizeName mech dict ucn ((mech.speciesEntries.get ⟨i, h⟩).name) =
      getSpeciesIdentifier (mkSpecies mech dict ucn i (mech.speciesEntries.get ⟨i, h⟩)) := by
  rw [normalizeName, findEntry, findEntryAux_of_nodup mech.speciesEntries 0 hnames i h]
  simp

theorem nodup_ids_get_inj {l : List Species}
    (h : (l.map getSpeciesIdentifier).Nodup) {i j : Nat}
    (hi : i < l.length) (hj : j < l.length)
    (hEq : getSpeciesIdentifier (l.get ⟨i, hi⟩) = getSpeciesIdentifier (l.get ⟨j, hj⟩)) :
    i = j := by
  have hi2 : i < (l.map getSpeciesIdentifier).length := by simpa using hi
  have hj2 : j < (l.map getSpeciesIdentifier).length := by simpa using hj
  apply (@List.Nodup.getElem_inj_iff _ _ h i hi2 j hj2).mp
  rw [List.getElem_map, List.getElem_map]
  simpa [List.get_eq_getElem] using hEq

theorem id_mem_usedNames_saved (mech : MechFile) (dict : List (String × DictEntry))
    (ucn v c : Bool)
    (hnames : (mech.speciesEntries.map SpeciesEntry.name).Nodup)
    (hids : ((loadChemkinFile mech dict ucn).1.map getSpeciesIdentifier).Nodup)
    (hused : ∀ n ∈ usedNames mech, ∃ e ∈ mech.speciesEntries, e.name = n)
    (pos : Nat) (h : pos < mech.speciesEntries.length) :
    (getSpeciesIdentifier (mkSpecies mech dict ucn pos (mech.speciesEntries.get ⟨pos, h⟩)) ∈
      usedNames (saveChemkinFile (loadChemkinFile mech dict ucn).1
        (loadChemkinFile mech dict ucn).2 v c)) ↔
    (mech.speciesEntries.get ⟨pos, h⟩).name ∈ usedNames mech := by
  rw [usedNames_roundtrip]
  constructor
  · intro hmem
    obtain ⟨n0, hn0, hEqn⟩ := List.mem_map.mp hmem
    obtain ⟨pos0, e0, hfind⟩ := findEntryAux_isSome mech.speciesEntries 0 n0 (hused n0 hn0)
    have hprops := findEntryAux_withIdx mech.speciesEntries 0 n0 pos0 e0 hfind
    obtain ⟨j0, hj0, hpos0, hget0⟩ := mem_withIdx mech.speciesEntries 0 (pos0, e0) hprops.1
    simp only [Nat.zero_add] at hpos0
    have hget0b : e0 = mech.speciesEntries.get ⟨j0, hj0⟩ := hget0
    have hn1 : normalizeName mech dict ucn n0 =
        getSpeciesIdentifier (mkSpecies mech dict ucn pos0 e0) := by
      rw [normalizeName, findEntry, hfind]
    rw [hn1, hpos0, hget0b] at hEqn
    have hj0b : j0 < (loadChemkinFile mech dict ucn).1.length := by
      rw [loadChemkinFile_fst_length]
      exact hj0
    have hloadp : pos < (loadChemkinFile mech dict ucn).1.length := by
      rw [loadChemkinFile_fst_length]
      exact h
    have hjpos : j0 = pos := by
      apply nodup_ids_get_inj hids hj0b hloadp
      rw [loadChemkinFile_fst_get mech dict ucn j0 hj0 hj0b,
        loadChemkinFile_fst_get mech dict ucn pos h hloadp]
      exact hEqn
    subst hjpos
    have hname0 : n0 = (mech.speciesEntries.get ⟨j0, h⟩).name := by
      rw [← hprops.2, hget0b]
    exact hname0 ▸ hn0
  · intro hn
    have hnorm := normalizeName_of_entry mech dict ucn hnames pos h
    rw [← hnorm]
    exact List.mem_map_of_mem _ hn

theorem resaved_core (mech : MechFile) (dict : List (String × DictEntry))
    (ucn v c oldSty : Bool) (pos2 : Nat) (s : Species)
    (hmem : s ∈ (loadChemkinFile mech dict ucn).1)
    (hnames : (mech.speciesEntries.map SpeciesEntry.name).Nodup)
    (hids : ((loadChemkinFile mech dict ucn).1.map getSpeciesIdentifier).Nodup)
    (hstem : ∀ t ∈ (loadChemkinFile mech dict ucn).1, (splitIdentifier t.label).2 = none)
    (hused : ∀ n ∈ usedNames mech, ∃ e ∈ mech.speciesEntries, e.name = n) :
    (resaved mech dict ucn v c oldSty pos2 s).label = s.label ∧
    (resaved mech dict ucn v c oldSty pos2 s).index = s.index ∧
    (resaved mech dict ucn v c oldSty pos2 s).reactive = s.reactive ∧
    getSpeciesIdentifier (resaved mech dict ucn v c oldSty pos2 s) =
      getSpeciesIdentifier s := by
  have hlabel : (resaved mech dict ucn v c oldSty pos2 s).label = s.label :=
    labelOfEntry_saved (loadChemkinFile mech dict ucn).1 oldSty ucn s hmem hids (hstem s hmem)
  have hidxsaved : entryIdx ⟨getSpeciesIdentifier s⟩ = s.index :=
    entryIdx_saved s (hstem s hmem)
  obtain ⟨pos, h, hs_eq⟩ := loadChemkinFile_fst_mem hmem
  have hindex : (resaved mech dict ucn v c oldSty pos2 s).index = s.index := by
    show (match entryIdx ⟨getSpeciesIdentifier s⟩ with
      | some n => some n
      | none =>
        if 2 ≤ (mechLabels
            (saveChemkinFile (loadChemkinFile mech dict ucn).1
              (loadChemkinFile mech dict ucn).2 v c)
            (saveSpeciesDictionary (loadChemkinFile mech dict ucn).1 oldSty) ucn).count
            (labelOfEntry (saveSpeciesDictionary (loadChemkinFile mech dict ucn).1 oldSty)
              ucn ⟨getSpeciesIdentifier s⟩)
        then some pos2 else none) = s.index
    rw [hidxsaved]
    cases hsi : s.index with
    | some n => rfl
    | none =>
      have hcount : ¬ 2 ≤ (mechLabels mech dict ucn).count s.label := by
        have hmk : (mkSpecies mech dict ucn pos
            (mech.speciesEntries.get ⟨pos, h⟩)).index = none := by
          rw [← hs_eq]
          exact hsi
        have hc := (mkSpecies_index_none_count hmk).2
        have hlabEq : labelOfEntry dict ucn (mech.speciesEntries.get ⟨pos, h⟩) = s.label := by
          rw [hs_eq]
          rfl
        rw [hlabEq] at hc
        exact hc
      have hlabel2 : labelOfEntry (saveSpeciesDictionary (loadChemkinFile mech dict ucn).1
          oldSty) ucn ⟨getSpeciesIdentifier s⟩ = s.label := hlabel
      rw [hlabel2, mechLabels_saved (loadChemkinFile mech dict ucn).1
        (loadChemkinFile mech dict ucn).2 v c oldSty ucn hids hstem,
        loadChemkinFile_fst_labels, if_neg hcount]
  have hreactive : (resaved mech dict ucn v c oldSty pos2 s).reactive = s.reactive := by
    have hiff := id_mem_usedNames_saved mech dict ucn v c hnames hids hused pos h
    rw [← hs_eq] at hiff
    show ((if labelOfEntry (saveSpeciesDictionary (loadChemkinFile mech dict ucn).1 oldSty)
        ucn ⟨getSpeciesIdentifier s⟩ ∈ defaultInertList then false else true) ||
      (if (SpeciesEntry.mk (getSpeciesIdentifier s)).name ∈
        usedNames (saveChemkinFile (loadChemkinFile mech dict ucn).1
          (loadChemkinFile mech dict ucn).2 v c) then true else false)) = s.reactive
    have hlabel2 : labelOfEntry (saveSpeciesDictionary (loadChemkinFile mech dict ucn).1
        oldSty) ucn ⟨getSpeciesIdentifier s⟩ = s.label := hlabel
    rw [hlabel2]
    have hsre : s.reactive =
        ((if s.label ∈ defaultInertList then false else true) ||
         (if (mech.speciesEntries.get ⟨pos, h⟩).name ∈ usedNames mech then true
          else false)) := by
      rw [hs_eq]
      rfl
    rw [hsre]
    by_cases hu : (mech.speciesEntries.get ⟨pos, h⟩).name ∈ usedNames mech
    · rw [if_pos hu, if_pos (hiff.mpr hu)]
    · rw [if_neg hu, if_neg (fun hx => hu (hiff.mp hx))]
  refine ⟨hlabel, hindex, hreactive, ?_⟩
  exact getSpeciesIdentifier_eq_of _ _ hlabel hindex

theorem parseTemplateComment_kineticsLine (k : String) :
    parseTemplateComment ("! kinetics: " ++ k) = none := rfl

theorem extractFamily_reactionComments (v : Bool) (r : Reaction) :
    extractFamily (reactionComments v r) = r.family := by
  cases hf : r.family with
  | some f =>
    simp only [reactionComments, hf, List.singleton_append, extractFamily,
      parseTemplateComment_head]
  | none =>
    simp only [reactionComments, hf, List.nil_append]
    by_cases hv : v
    · rw [if_pos hv]
      simp only [extractFamily, parseTemplateComment_kineticsLine]
    · rw [if_neg hv]
      rfl

theorem mem_namesOfReactions {re : ReactionEntry} {n : String} :
    ∀ res : List ReactionEntry, re ∈ res → n ∈ re.reactants ++ re.products →
      n ∈ namesOfReactions res := by
  intro res
  induction res with
  | nil =>
    intro h _
    exact absurd h (List.not_mem_nil re)
  | cons x rest ih =>
    intro hre hn
    simp only [namesOfReactions, List.mem_append]
    rcases List.mem_cons.mp hre with rfl | hmem
    · rcases List.mem_append.mp hn with h1 | h2
      · exact Or.inl (Or.inl h1)
      · exact Or.inl (Or.inr h2)
    · exact Or.inr (ih hmem hn)

theorem withIdx_map {α β : Type} (f : α → β) :
    ∀ (i : Nat) (l : List α),
      withIdx i (l.map f) = (withIdx i l).map (fun p => (p.1, f p.2)) := by
  intro i l
  induction l generalizing i with
  | nil => rfl
  | cons x xs ih => simp [withIdx, ih]

theorem normalizeName_roundtrip (mech : MechFile) (dict : List (String × DictEntry))
    (ucn v c oldSty : Bool)
    (hnames : (mech.speciesEntries.map SpeciesEntry.name).Nodup)
    (hids : ((loadChemkinFile mech dict ucn).1.map getSpeciesIdentifier).Nodup)
    (hstem : ∀ t ∈ (loadChemkinFile mech dict ucn).1, (splitIdentifier t.label).2 = none)
    (hused : ∀ n ∈ usedNames mech, ∃ e ∈ mech.speciesEntries, e.name = n)
    (n : String) (hn : n ∈ usedNames mech) :
    normalizeName
      (saveChemkinFile (loadChemkinFile mech dict ucn).1 (loadChemkinFile mech dict ucn).2 v c)
      (saveSpeciesDictionary (loadChemkinFile mech dict ucn).1 oldSty) ucn
      (normalizeName mech dict ucn n) = normalizeName mech dict ucn n := by
  obtain ⟨pos0, e0, hfind⟩ := findEntryAux_isSome mech.speciesEntries 0 n (hused n hn)
  have hprops := findEntryAux_withIdx mech.speciesEntries 0 n pos0 e0 hfind
  obtain ⟨j0, hj0, hpos0, hget0⟩ := mem_withIdx mech.speciesEntries 0 (pos0, e0) hprops.1
  simp only [Nat.zero_add] at hpos0
  have hget0b : e0 = mech.speciesEntries.get ⟨j0, hj0⟩ := hget0
  have hn1 : normalizeName mech dict ucn n =
      getSpeciesIdentifier (mkSpecies mech dict ucn pos0 e0) := by
    rw [normalizeName, findEntry, hfind]
  rw [hn1, hpos0, hget0b]
  have hsmem : mkSpecies mech dict ucn j0 (mech.speciesEntries.get ⟨j0, hj0⟩) ∈
      (loadChemkinFile mech dict ucn).1 := mkSpecies_mem_load mech dict ucn j0 hj0
  have hdecl2 : ∃ e2 ∈ (saveChemkinFile (loadChemkinFile mech dict ucn).1
      (loadChemkinFile mech dict ucn).2 v c).speciesEntries,
      e2.name = getSpeciesIdentifier
        (mkSpecies mech dict ucn j0 (mech.speciesEntries.get ⟨j0, hj0⟩)) := by
    refine ⟨⟨getSpeciesIdentifier
      (mkSpecies mech dict ucn j0 (mech.speciesEntries.get ⟨j0, hj0⟩))⟩, ?_, rfl⟩
    exact List.mem_map_of_mem _ hsmem
  obtain ⟨pos2, e2, hfind2⟩ := findEntryAux_isSome _ 0 _ hdecl2
  have hname2 := (findEntryAux_withIdx _ 0 _ pos2 e2 hfind2).2
  have he2 : e2 = ⟨getSpeciesIdentifier
      (mkSpecies mech dict ucn j0 (mech.speciesEntries.get ⟨j0, hj0⟩))⟩ := by
    cases e2
    simpa using hname2
  rw [normalizeName, findEntry, hfind2, he2]
  exact (resaved_core mech dict ucn v c oldSty pos2
    (mkSpecies mech dict ucn j0 (mech.speciesEntries.get ⟨j0, hj0⟩))
    hsmem hnames hids hstem hused).2.2.2

/-- C3: for every species/reaction set obtained from `loadChemkinFile`
on a well-formed mechanism — uniquely named species declarations,
collision-free identifiers, canonical labels free of parenthesized
numeric suffixes, and reaction endpoints referencing declared species
only — writing it out with `saveChemkinFile` (and
`saveSpeciesDictionary`) and re-loading the written files yields an
equivalent species/reaction set: for each reaction the family annotation,
reactant/product endpoints and kinetics equal those of the original
load, and each species keeps its label, disambiguation index and
reactivity; only cosmetic formatting (the raw in-file spelling of the
names) is lost.  This holds for every combination of the
`useChemkinNames`, `verbose`, `checkForDuplicates` and `oldStyle`
options. -/
theorem chemkinRoundTrip_equivalent (mech : MechFile) (dict : List (String × DictEntry))
    (ucn v c oldSty : Bool)
    (hnames : (mech.speciesEntries.map SpeciesEntry.name).Nodup)
    (hids : ((loadChemkinFile mech dict ucn).1.map getSpeciesIdentifier).Nodup)
    (hstem : ∀ t ∈ (loadChemkinFile mech dict ucn).1, (splitIdentifier t.label).2 = none)
    (hused : ∀ n ∈ usedNames mech, ∃ e ∈ mech.speciesEntries, e.name = n) :
    (chemkinRoundTrip mech dict ucn v c oldSty).1.map speciesCore =
      (loadChemkinFile mech dict ucn).1.map speciesCore ∧
    (chemkinRoundTrip mech dict ucn v c oldSty).2.map reactionCore =
      (loadChemkinFile mech dict ucn).2.map reactionCore := by
  constructor
  · have e2 : (chemkinRoundTrip mech dict ucn v c oldSty).1 =
        (withIdx 0 ((loadChemkinFile mech dict ucn).1.map
          (fun t => (⟨getSpeciesIdentifier t⟩ : SpeciesEntry)))).map
          (fun pe => mkSpecies
            (saveChemkinFile (loadChemkinFile mech dict ucn).1
              (loadChemkinFile mech dict ucn).2 v c)
            (saveSpeciesDictionary (loadChemkinFile mech dict ucn).1 oldSty)
            ucn pe.1 pe.2) := rfl
    rw [e2, withIdx_map, List.map_map, List.map_map]
    conv_rhs => rw [← withIdx_map_snd 0 (loadChemkinFile mech dict ucn).1, List.map_map]
    apply List.map_congr_left
    intro p hp
    obtain ⟨j, hj, h1, h2⟩ := mem_withIdx _ 0 p hp
    have hpm : p.2 ∈ (loadChemkinFile mech dict ucn).1 := by
      rw [h2]
      exact List.get_mem _ _ _
    obtain ⟨hl, hi, hr, _⟩ :=
      resaved_core mech dict ucn v c oldSty p.1 p.2 hpm hnames hids hstem hused
    show speciesCore (resaved mech dict ucn v c oldSty p.1 p.2) = speciesCore p.2
    simp [speciesCore, hl, hi, hr]
  · have hmapr : ∀ ns : List String, (∀ x ∈ ns, x ∈ usedNames mech) →
        ((ns.map (normalizeName mech dict ucn)).map
          (normalizeName
            (saveChemkinFile (loadChemkinFile mech dict ucn).1
              (loadChemkinFile mech dict ucn).2 v c)
            (saveSpeciesDictionary (loadChemkinFile mech dict ucn).1 oldSty) ucn)) =
          ns.map (normalizeName mech dict ucn) := by
      intro ns hns
      rw [List.map_map]
      apply List.map_congr_left
      intro x hx
      exact normalizeName_roundtrip mech dict ucn v c oldSty hnames hids hstem hused
        x (hns x hx)
    show ((((loadChemkinFile mech dict ucn).2.map (fun r =>
        (⟨r.reactants, r.products, r.kinetics, reactionComments v r⟩ : ReactionEntry))).map
        (fun re => (⟨re.reactants.map (normalizeName
            (saveChemkinFile (loadChemkinFile mech dict ucn).1
              (loadChemkinFile mech dict ucn).2 v c)
            (saveSpeciesDictionary (loadChemkinFile mech dict ucn).1 oldSty) ucn),
          re.products.map (normalizeName
            (saveChemkinFile (loadChemkinFile mech dict ucn).1
              (loadChemkinFile mech dict ucn).2 v c)
            (saveSpeciesDictionary (loadChemkinFile mech dict ucn).1 oldSty) ucn),
          re.kinetics, extractFamily re.comments⟩ : Reaction)))).map reactionCore =
      (loadChemkinFile mech dict ucn).2.map reactionCore
    rw [List.map_map, List.map_map]
    apply List.map_congr_left
    intro r hr
    have hr2 : r ∈ mech.reactionEntries.map (fun re =>
        (⟨re.reactants.map (normalizeName mech dict ucn),
          re.products.map (normalizeName mech dict ucn), re.kinetics,
          extractFamily re.comments⟩ : Reaction)) := hr
    obtain ⟨re, hre, hr_eq⟩ := List.mem_map.mp hr2
    have hreac : ∀ x ∈ re.reactants, x ∈ usedNames mech := by
      intro x hx
      exact mem_namesOfReactions mech.reactionEntries hre
        (List.mem_append.mpr (Or.inl hx))
    have hprod : ∀ x ∈ re.products, x ∈ usedNames mech := by
      intro x hx
      exact mem_namesOfReactions mech.reactionEntries hre
        (List.mem_append.mpr (Or.inr hx))
    subst hr_eq
    show reactionCore ⟨(re.reactants.map (normalizeName mech dict ucn)).map
        (normalizeName
          (saveChemkinFile (loadChemkinFile mech dict ucn).1
            (loadChemkinFile mech dict ucn).2 v c)
          (saveSpeciesDictionary (loadChemkinFile mech dict ucn).1 oldSty) ucn),
      (re.products.map (normalizeName mech dict ucn)).map
        (normalizeName
          (saveChemkinFile (loadChemkinFile mech dict ucn).1
            (loadChemkinFile mech dict ucn).2 v c)
          (saveSpeciesDictionary (loadChemkinFile mech dict ucn).1 oldSty) ucn),
      re.kinetics,
      extractFamily (reactionComments v ⟨re.reactants.map (normalizeName mech dict ucn),
        re.products.map (normalizeName mech dict ucn), re.kinetics,
        extractFamily re.comments⟩)⟩ =
      reactionCore ⟨re.reactants.map (normalizeName mech dict ucn),
        re.products.map (normalizeName mech dict ucn), re.kinetics,
        extractFamily re.comments⟩
    rw [extractFamily_reactionComments]
    simp only [reactionCore, hmapr re.reactants hreac, hmapr re.products hprod]

/-- Witness for C3 on the `minimal`-style fixture: the
write-then-reload round trip reproduces the loaded species cores and
reaction cores (endpoints, kinetics, family annotations). -/
theorem chemkinRoundTrip_equivalent_witness :
    (chemkinRoundTrip mechMin dictMin false true true false).1.map speciesCore =
      (loadChemkinFile mechMin dictMin false).1.map speciesCore ∧
    (chemkinRoundTrip mechMin dictMin false true true false).2.map reactionCore =
      (loadChemkinFile mechMin dictMin false).2.map reactionCore :=
  chemkinRoundTrip_equivalent mechMin dictMin false true true false
    (by decide) (by decide) (by decide) (by decide)

end Chemkin
